import Mathlib

/-!
A verification development for the finja code indexer (finja.py).

The program is shallowly embedded: byte strings are `List Nat` (each entry a
byte value), SQL tables are Lean lists of row structures, and the effect of
each SQL statement is a pure function on those lists.  File-system reads
(stat results, file contents) are inputs to the embedded functions, exactly
as they are inputs to the Python functions that perform the corresponding
I/O.  Machine integers are `Nat` with explicit reduction modulo 2^32 where
the source relies on 32-bit behaviour (MD5, packed u32 path arrays).

The file has two parts: first all definitions (the embedding), then all
theorems about them.
-/

set_option maxRecDepth 40000

namespace Finja

/-! # Part 1: the embedding -/

/-! ## Byte-string basics

Python `bytes` values are modelled as `List Nat` with entries below 256.
`pyStrip` models `bytes.strip()` / `str.strip()` (ASCII whitespace only,
which is exact for `bytes` and for ASCII text), `asciiLower` models
`bytes.lower()` / `str.lower()` on ASCII data. -/

/-- The six ASCII whitespace bytes stripped by Python `strip()`:
space, tab, newline, carriage return, vertical tab, form feed. -/
def isWS (b : Nat) : Bool :=
  b = 32 || b = 9 || b = 10 || b = 13 || b = 11 || b = 12

/-- Lowercase a single ASCII byte. -/
def lowerB (b : Nat) : Nat :=
  if 65 ≤ b ∧ b ≤ 90 then b + 32 else b

/-- `bytes.lower()`: lowercase every ASCII letter byte. -/
def asciiLower (l : List Nat) : List Nat :=
  l.map lowerB

/-- `bytes.strip()`: drop leading and trailing whitespace bytes. -/
def pyStrip (l : List Nat) : List Nat :=
  ((l.dropWhile isWS).reverse.dropWhile isWS).reverse

/-! ## MD5 (hashlib.md5)

A complete executable MD5 over byte lists, used by `cleanup` for tokens
longer than 16 bytes.  Word arithmetic is `Nat` reduced modulo 2^32. -/

/-- Reduce to a 32-bit word. -/
def w32 (n : Nat) : Nat := n % 4294967296

/-- 32-bit addition. -/
def wadd (a b : Nat) : Nat := w32 (a + b)

/-- 32-bit bitwise complement (argument assumed < 2^32). -/
def wnot (a : Nat) : Nat := a ^^^ 4294967295

/-- Rotate a 32-bit word left by `s` bits (0 < s < 32). -/
def rotl (a s : Nat) : Nat :=
  (a % 2 ^ (32 - s)) * 2 ^ s + a / 2 ^ (32 - s)

/-- The 64 MD5 sine-derived constants `K[i] = floor(|sin(i+1)| * 2^32)`. -/
def md5K : List Nat :=
  [3614090360, 3905402710, 606105819, 3250441966, 4118548399, 1200080426,
   2821735955, 4249261313, 1770035416, 2336552879, 4294925233, 2304563134,
   1804603682, 4254626195, 2792965006, 1236535329, 4129170786, 3225465664,
   643717713, 3921069994, 3593408605, 38016083, 3634488961, 3889429448,
   568446438, 3275163606, 4107603335, 1163531501, 2850285829, 4243563512,
   1735328473, 2368359562, 4294588738, 2272392833, 1839030562, 4259657740,
   2763975236, 1272893353, 4139469664, 3200236656, 681279174, 3936430074,
   3572445317, 76029189, 3654602809, 3873151461, 530742520, 3299628645,
   4096336452, 1126891415, 2878612391, 4237533241, 1700485571, 2399980690,
   4293915773, 2240044497, 1873313359, 4264355552, 2734768916, 1309151649,
   4149444226, 3174756917, 718787259, 3951481745]

/-- The 64 MD5 per-round left-rotation amounts. -/
def md5S : List Nat :=
  [7, 12, 17, 22, 7, 12, 17, 22, 7, 12, 17, 22, 7, 12, 17, 22,
   5, 9, 14, 20, 5, 9, 14, 20, 5, 9, 14, 20, 5, 9, 14, 20,
   4, 11, 16, 23, 4, 11, 16, 23, 4, 11, 16, 23, 4, 11, 16, 23,
   6, 10, 15, 21, 6, 10, 15, 21, 6, 10, 15, 21, 6, 10, 15, 21]

/-- Little-endian 4-byte encoding of a 32-bit word. -/
def le4 (n : Nat) : List Nat :=
  [n % 256, n / 256 % 256, n / 65536 % 256, n / 16777216 % 256]

/-- Little-endian 8-byte encoding of a 64-bit word. -/
def le8 (n : Nat) : List Nat :=
  le4 (n % 4294967296) ++ le4 (n / 4294967296 % 4294967296)

/-- MD5 padding: append 0x80, zero bytes to 56 mod 64, then the bit length
as a little-endian 64-bit integer. -/
def md5pad (msg : List Nat) : List Nat :=
  let l := msg.length
  let zeros := (119 - l % 64) % 64
  msg ++ (128 :: List.replicate zeros 0) ++ le8 (8 * l % 18446744073709551616)

/-- Split a byte list into 64-byte chunks (structural recursion on a fuel
bound so that the definition reduces inside the kernel). -/
def chunks64Aux : Nat → List Nat → List (List Nat)
  | 0, _ => []
  | _, [] => []
  | fuel + 1, l => (l.take 64) :: chunks64Aux fuel (l.drop 64)

/-- Split a byte list into 64-byte chunks. -/
def chunks64 (l : List Nat) : List (List Nat) :=
  chunks64Aux l.length l

/-- The `g`-th little-endian 32-bit word of a 64-byte block. -/
def blockWord (block : List Nat) (g : Nat) : Nat :=
  block.getD (4 * g) 0 + 256 * block.getD (4 * g + 1) 0 +
    65536 * block.getD (4 * g + 2) 0 + 16777216 * block.getD (4 * g + 3) 0

/-- One MD5 operation (round `i`, 0 ≤ i < 64) on state `(a, b, c, d)`. -/
def md5op (block : List Nat) (st : Nat × Nat × Nat × Nat) (i : Nat) :
    Nat × Nat × Nat × Nat :=
  let (a, b, c, d) := st
  let fg : Nat × Nat :=
    if i < 16 then ((b &&& c) ||| (wnot b &&& d), i)
    else if i < 32 then ((d &&& b) ||| (wnot d &&& c), (5 * i + 1) % 16)
    else if i < 48 then (b ^^^ c ^^^ d, (3 * i + 5) % 16)
    else (c ^^^ (b ||| wnot d), 7 * i % 16)
  let f := fg.1
  let g := fg.2
  let x := wadd (wadd a f) (wadd (md5K.getD i 0) (blockWord block g))
  (d, wadd b (rotl x (md5S.getD i 0)), b, c)

/-- Process one 64-byte block into the running MD5 state. -/
def md5block (st : Nat × Nat × Nat × Nat) (block : List Nat) :
    Nat × Nat × Nat × Nat :=
  let (a0, b0, c0, d0) := st
  let (a, b, c, d) := (List.range 64).foldl (md5op block) (a0, b0, c0, d0)
  (wadd a0 a, wadd b0 b, wadd c0 c, wadd d0 d)

/-- `hashlib.md5(msg).digest()`: the 16-byte MD5 digest of a byte string. -/
def md5digest (msg : List Nat) : List Nat :=
  let (a, b, c, d) :=
    (chunks64 (md5pad msg)).foldl md5block
      (1732584193, 4023233417, 2562383102, 271733878)
  le4 a ++ le4 b ++ le4 c ++ le4 d

/-! ## Token normalizer (`cleanup` in finja.py)

```
def cleanup(string):
    string = string.strip()
    if len(string) < 2:
        return None
    if len(string) <= 16:
        return string.lower()
    return hashlib.md5(string.lower().encode("UTF-8")).digest()
```
Modelled on byte strings; exact for ASCII text and for `bytes` input
(the second application of `cleanup` in the fixed-point property receives
the `bytes` digest). -/

/-- The token normalizer `cleanup`. -/
def cleanup (s : List Nat) : Option (List Nat) :=
  if (pyStrip s).length < 2 then none
  else if (pyStrip s).length ≤ 16 then some (asciiLower (pyStrip s))
  else some (md5digest (asciiLower (pyStrip s)))

/-- The 17-byte ASCII token "abcdefghijklmnopq" (used as a concrete input). -/
def exLongToken : List Nat :=
  [97, 98, 99, 100, 101, 102, 103, 104, 105, 106, 107, 108,
   109, 110, 111, 112, 113]

/-! ## Path segment interning

The `path_token` table together with `PathTokenDict.__missing__` (string to
id, inserting on miss via AUTOINCREMENT) and `PathStringDict.__missing__`
(id to string, raising on miss).  A table is a list of `(id, string)` rows;
inserts append, as in SQLite. -/

/-- The persisted `path_token` table: rows `(id, string)`. -/
abbrev PathTable := List (Nat × List Char)

/-- `SELECT id FROM path_token WHERE string = ?`. -/
def lookupSegId (t : PathTable) (s : List Char) : Option Nat :=
  (t.find? fun r => r.2 == s).map (·.1)

/-- `SELECT string FROM path_token WHERE id = ?`. -/
def lookupSegStr (t : PathTable) (i : Nat) : Option (List Char) :=
  (t.find? fun r => r.1 == i).map (·.2)

/-- SQLite AUTOINCREMENT: the rowid assigned to the next insert, one more
than the largest id present. -/
def nextSegId (t : PathTable) : Nat :=
  (t.map (·.1)).foldr max 0 + 1

/-- `PathTokenDict.__missing__`: look the segment up by string; if absent,
insert it and return the fresh rowid. -/
def internSeg (t : PathTable) (s : List Char) : PathTable × Nat :=
  match lookupSegId t s with
  | some i => (t, i)
  | none => (t ++ [(nextSegId t, s)], nextSegId t)

/-- Intern every segment of a path in order (the list comprehension
`[path_token_dict[x] for x in path_arr]` in `path_compress`). -/
def internSegs (t : PathTable) (segs : List (List Char)) :
    PathTable × List Nat :=
  match segs with
  | [] => (t, [])
  | s :: rest =>
    let p := internSeg t s
    let q := internSegs p.1 rest
    (q.1, p.2 :: q.2)

/-- Look up every id of a packed path (`PathStringDict` lookups in
`path_decompress`); `none` models the `KeyError` on a missing id. -/
def lookupSegs (t : PathTable) (ids : List Nat) :
    Option (List (List Char)) :=
  match ids with
  | [] => some []
  | i :: rest =>
    match lookupSegStr t i, lookupSegs t rest with
    | some s, some ss => some (s :: ss)
    | _, _ => none

/-- Well-formedness of the `path_token` table: ids are unique (rowids) and
strings are unique (`__missing__` only inserts a string that is absent). -/
structure PathTableWF (t : PathTable) : Prop where
  ids_unique : t.Pairwise fun a b => a.1 ≠ b.1
  strs_unique : t.Pairwise fun a b => a.2 ≠ b.2

/-- `array.array('I', ids).tobytes()`: pack ids as little-endian u32. -/
def packU32 (ids : List Nat) : List Nat :=
  (ids.map le4).flatten

/-- Decode the leading little-endian u32 of a byte list. -/
def wordAt (b : List Nat) : Nat :=
  b.getD 0 0 + 256 * b.getD 1 0 + 65536 * b.getD 2 0 + 16777216 * b.getD 3 0

/-- `array.array('I'); frombytes`: unpack little-endian u32 values
(fuel-structured recursion). -/
def unpackU32Aux : Nat → List Nat → List Nat
  | 0, _ => []
  | _, [] => []
  | fuel + 1, b => wordAt b :: unpackU32Aux fuel (b.drop 4)

/-- Unpack a packed little-endian u32 array. -/
def unpackU32 (b : List Nat) : List Nat :=
  unpackU32Aux b.length b

/-! ## Python `split` / `join` on the host separator -/

/-- `path.split(os.sep)` (Python `str.split` with an explicit separator:
`"".split(sep) = [""]`, empty fragments are kept). -/
def pySplit (sep : Char) : List Char → List (List Char)
  | [] => [[]]
  | c :: rest =>
    if c == sep then [] :: pySplit sep rest
    else
      match pySplit sep rest with
      | [] => [[c]]
      | s :: ss => (c :: s) :: ss

/-- `os.sep.join(parts)`. -/
def pyJoin (sep : Char) : List (List Char) → List Char
  | [] => []
  | [s] => s
  | s :: rest => s ++ sep :: pyJoin sep rest

/-- `path_compress(path, db)`: split by the separator, intern each segment,
pack the ids as a little-endian u32 array.  Returns the updated table and
the packed bytes. -/
def path_compress (t : PathTable) (sep : Char) (p : List Char) :
    PathTable × List Nat :=
  let q := internSegs t (pySplit sep p)
  (q.1, packU32 q.2)

/-- `path_decompress(path, db)`: unpack the u32 array, look every id up,
join with the separator. -/
def path_decompress (t : PathTable) (sep : Char) (b : List Nat) :
    Option (List Char) :=
  (lookupSegs t (unpackU32 b)).map (pyJoin sep)

/-! ## Ignore patterns (`prepare_ignores`) and the hex LIKE filter -/

/-- An uppercase hexadecimal digit (SQLite `hex()` and
`binascii.b2a_hex(...).upper()` both produce uppercase). -/
def hexDigit (n : Nat) : Char :=
  (['0', '1', '2', '3', '4', '5', '6', '7', '8', '9',
    'A', 'B', 'C', 'D', 'E', 'F']).getD n '0'

/-- Two uppercase hex digits of one byte. -/
def hexByte (b : Nat) : List Char :=
  [hexDigit (b / 16 % 16), hexDigit (b % 16)]

/-- `hex(blob)`: uppercase hex expansion of a byte string. -/
def hexBytes (bs : List Nat) : List Char :=
  (bs.map hexByte).flatten

/-- Test whether `pat` is an initial segment of `l`. -/
def leadsWith [BEq α] : List α → List α → Bool
  | [], _ => true
  | _ :: _, [] => false
  | a :: pat, b :: l => a == b && leadsWith pat l

/-- Test whether `pat` occurs contiguously inside `l`
(the meaning of SQL `LIKE '%pat%'`). -/
def occursIn [BEq α] (pat : List α) : List α → Bool
  | [] => pat.isEmpty
  | b :: l => leadsWith pat (b :: l) || occursIn pat l

/-- `prepare_ignores`: intern each ignore segment and produce the hex
pattern `binascii.b2a_hex(struct.pack('I', id)).upper()` used between the
`%` wildcards of the `NOT LIKE` filter.  Returns the updated table and the
pattern cores. -/
def prepare_ignores (t : PathTable) (pignore : List (List Char)) :
    PathTable × List (List Char) :=
  match pignore with
  | [] => (t, [])
  | s :: rest =>
    let p := internSeg t s
    let q := prepare_ignores p.1 rest
    (q.1, hexBytes (le4 p.2) :: q.2)

/-- The conjunction of the `AND hex(f.path) NOT LIKE '%pat%'` filters of the
search query, applied to a file's packed path bytes. -/
def passesIgnores (pats : List (List Char)) (pathBytes : List Nat) : Bool :=
  pats.all fun pat => !(occursIn pat (hexBytes pathBytes))

/-! ## The file and posting tables -/

/-- A row of the `file` table. -/
structure FileRow where
  id : Nat
  path : List Nat
  md5 : Option (List Nat)
  inode : Option Nat
  found : Bool
  encoding : Option (List Char)
  deriving DecidableEq

/-- A row of the `finja` (posting) table; the AUTOINCREMENT `id` column
carries no information and is omitted. -/
structure Posting where
  token_id : Nat
  file_id : Nat
  line : Nat
  deriving DecidableEq

/-- The persistent state the indexer manipulates: the `file` and `finja`
tables, the AUTOINCREMENT cursor of the `file` table, and the global
`_do_second_pass` flag. -/
structure DBState where
  files : List FileRow
  finja : List Posting
  nextFileId : Nat
  secondPass : Bool
  deriving DecidableEq

/-- SQL `=` on nullable md5 columns: `NULL` compares false to everything
(three-valued logic), so only two non-null equal blobs match. -/
def md5EqB : Option (List Nat) → Option (List Nat) → Bool
  | some a, some b => a == b
  | _, _ => false

/-- `UPDATE file SET found = 0`. -/
def clear_found_files (st : DBState) : DBState :=
  { st with files := st.files.map fun f => { f with found := false } }

/-- `DELETE FROM finja WHERE file_id IN (SELECT id FROM file WHERE
found = 0)`. -/
def delete_missing_indexes (st : DBState) : DBState :=
  { st with finja := st.finja.filter fun i =>
      !(st.files.any fun f => !f.found && f.id == i.file_id) }

/-- `DELETE FROM file WHERE id IN (SELECT f.id FROM file as f JOIN file as
ff ON f.md5 = ff.md5 WHERE ff.found = 0)`. -/
def delete_missing_files (st : DBState) : DBState :=
  { st with files := st.files.filter fun f =>
      !(st.files.any fun ff => !ff.found && md5EqB f.md5 ff.md5) }

/-- `SELECT count(*) FROM file WHERE found = 0`. -/
def find_missing_count (st : DBState) : Nat :=
  (st.files.filter fun f => !f.found).length

/-- The end of `do_index_pass`: when some file row kept `found = 0`,
delete the postings of those rows, delete the file rows sharing an md5
with them, and set the second-pass flag. -/
def pass_cleanup (st : DBState) : DBState :=
  if find_missing_count st > 0 then
    { delete_missing_files (delete_missing_indexes st) with
        secondPass := true }
  else st

/-! ## The change detector (`check_file`) -/

/-- `SELECT count(*) FROM file WHERE md5 = ?` (with a non-null
argument). -/
def count_md5 (files : List FileRow) (m : List Nat) : Nat :=
  (files.filter fun f => md5EqB f.md5 (some m)).length

/-- `UPDATE file SET inode = null, md5 = null WHERE md5 = ?`. -/
def clear_inode_md5_of_duplicates (files : List FileRow) (m : List Nat) :
    List FileRow :=
  files.map fun f =>
    if md5EqB f.md5 (some m) then { f with inode := none, md5 := none }
    else f

/-- The result of `check_file`: the updated `file` table and AUTOINCREMENT
cursor, the global second-pass flag, the do-index decision, and the file
id. -/
structure CheckResult where
  files : List FileRow
  nextFileId : Nat
  secondPass : Bool
  reindex : Bool
  file_id : Nat
  deriving DecidableEq

/-- `check_file(con, file_, file_path, cfile_path, inode, old_md5)` with
`md5sum = md5(file_path)` supplied by the caller (file contents are
external input).  Faithful to the source: `duplicated` starts `True`; in
the diverged-duplicate case (`old_md5` non-null, shared by more than one
row, different from `md5sum`) the rows sharing `old_md5` are cleared,
`_do_second_pass` is set and `duplicated` becomes definitively `False`
without consulting `count(md5 = md5sum)`; otherwise `duplicated` is
`count(md5 = md5sum) > 0`.  Then the row is inserted or updated, and the
function returns `reindex = False` when duplicated, else
`reindex = (old_md5 != md5sum)`. -/
def check_file (files : List FileRow) (nextFileId : Nat)
    (secondPass : Bool) ( file_ : Option Nat) (cfile_path : List Nat)
    (inode : Nat) (old_md5 : Option (List Nat)) (md5sum : List Nat) :
    CheckResult :=
  let step1 : List FileRow × Bool × Bool :=
    match old_md5 with
    | some m =>
      if decide (1 < count_md5 files m) && (m != md5sum) then
        (clear_inode_md5_of_duplicates files m, true, false)
      else (files, secondPass, true)
    | none => (files, secondPass, true)
  let files1 := step1.1
  let sp := step1.2.1
  let duplicated :=
    if step1.2.2 then decide (0 < count_md5 files1 md5sum) else false
  let ins : List FileRow × Nat × Nat :=
    match file_ with
    | none =>
      (files1 ++ [⟨nextFileId, cfile_path, some md5sum, some inode,
        true, none⟩], nextFileId, nextFileId + 1)
    | some fid =>
      (files1.map fun f =>
        if f.id == fid then
          { f with md5 := some md5sum, inode := some inode, found := true }
        else f, fid, nextFileId)
  if duplicated then ⟨ins.1, ins.2.2, sp, false, ins.2.1⟩
  else ⟨ins.1, ins.2.2, sp, old_md5 != some md5sum, ins.2.1⟩

/-! ## The indexer (`index_file` / `read_index` / `do_index_pass`)

File-system facts (`os.stat`, file contents, binary detection, decoding,
tokenization) are external inputs, collected in a `Visit`. -/

/-- What `index_file` learns about one visited regular file: its
compressed path, stat inode, content digest, whether the binary detector
fires, whether decoding succeeds, the decoded encoding, and the
tokenization result (the set of `(token_id, line)` pairs the parser
produces from the current content). -/
structure Visit where
  cpath : List Nat
  inode : Nat
  md5sum : List Nat
  isBinary : Bool
  decodable : Bool
  encoding : Option (List Char)
  tokens : List (Nat × Nat)
  deriving DecidableEq

/-- `SELECT id, inode, md5 FROM file WHERE path = ?` (first row). -/
def find_file (files : List FileRow) (cpath : List Nat) : Option FileRow :=
  files.find? fun f => f.path == cpath

/-- `UPDATE file SET found = 1 WHERE path = ?`. -/
def mark_found (files : List FileRow) (cpath : List Nat) : List FileRow :=
  files.map fun f =>
    if f.path == cpath then { f with found := true } else f

/-- `UPDATE file SET found = 1, encoding = ? WHERE path = ?`. -/
def update_file_info (files : List FileRow) (cpath : List Nat)
    (enc : Option (List Char)) : List FileRow :=
  files.map fun f =>
    if f.path == cpath then { f with found := true, encoding := enc }
    else f

/-- `read_index`: skip binary files; skip undecodable files (stale
postings stay); otherwise delete the postings of this file id and insert
the freshly parsed set.  (The token-dictionary commit also performed here
acts on the token table, modelled separately.) -/
def read_index (st : DBState) (fid : Nat) (v : Visit) : DBState :=
  if v.isBinary then st
  else if !v.decodable then st
  else
    { st with finja := (st.finja.filter fun i => !(i.file_id == fid)) ++
        v.tokens.map fun tl => ⟨tl.1, fid, tl.2⟩ }

/-- The reindex side of `index_file`: run `check_file`; if it authorizes
indexing, run `read_index` and then `_update_file_info`. -/
def index_file_reindex (st : DBState) ( file_ : Option Nat)
    (old_md5 : Option (List Nat)) (v : Visit) : DBState :=
  let cr := check_file st.files st.nextFileId st.secondPass file_
    v.cpath v.inode old_md5 v.md5sum
  let st1 : DBState := ⟨cr.files, st.finja, cr.nextFileId, cr.secondPass⟩
  if cr.reindex then
    let st2 := read_index st1 cr.file_id v
    { st2 with files := update_file_info st2.files v.cpath v.encoding }
  else st1

/-- `index_file`: look the row up by compressed path; when the stored
inode equals the stat inode, only `UPDATE file SET found = 1`; otherwise
run the change detector and (if authorized) the indexer. -/
def index_file (st : DBState) (v : Visit) : DBState :=
  match find_file st.files v.cpath with
  | some f =>
    if f.inode == some v.inode then
      { st with files := mark_found st.files v.cpath }
    else index_file_reindex st (some f.id) f.md5 v
  | none => index_file_reindex st none none v

/-- One pass of `do_index_pass` over the given visits: clear all `found`
flags, visit every file, then run the vanished-file cleanup. -/
def do_index_pass (st : DBState) (visits : List Visit) : DBState :=
  pass_cleanup (visits.foldl index_file (clear_found_files st))

/-! ## Search query semantics (`gen_search_query` + execution)

`gen_search_query` builds, for terms `t :: ts`, a join of `finja as i`
(with `i.token_id = t`), `file as f` (on `i.file_id = f.id`), and one
`finja as i_k` per further term, joined on `i.file_id = i_k.file_id` (and
additionally `i.line = i_k.line` unless file-mode), with one
`hex(f.path) NOT LIKE ?` conjunct per ignore pattern.  The following
predicates give the relational semantics of a row tuple existing for a
given projection value. -/

/-- A file `f` is produced by the file-mode query for terms `t :: ts` and
ignore patterns `pats`. -/
def fileModeHit (st : DBState) (pats : List (List Char)) (t : Nat)
    (ts : List Nat) (f : FileRow) : Bool :=
  (st.finja.any fun i => i.file_id == f.id && i.token_id == t) &&
  (ts.all fun q => st.finja.any fun i => i.file_id == f.id &&
    i.token_id == q) &&
  passesIgnores pats f.path

/-- A pair `(f, l)` is produced by the line-mode query for terms `t :: ts`
and ignore patterns `pats`. -/
def lineModeHit (st : DBState) (pats : List (List Char)) (t : Nat)
    (ts : List Nat) (f : FileRow) (l : Nat) : Bool :=
  (st.finja.any fun i => i.file_id == f.id && i.token_id == t &&
    i.line == l) &&
  (ts.all fun q => st.finja.any fun i => i.file_id == f.id &&
    i.line == l && i.token_id == q) &&
  passesIgnores pats f.path

/-- The file-mode result set: `SELECT DISTINCT f.path, f.id` over the
join (membership in this list is the result-set semantics; `DISTINCT`
only removes duplicate rows). -/
def searchFileMode (st : DBState) (pats : List (List Char)) (t : Nat)
    (ts : List Nat) : List (List Nat × Nat) :=
  (st.files.filter (fileModeHit st pats t ts)).map fun f => (f.path, f.id)

/-- The line-mode result set: `SELECT DISTINCT f.path, f.id, i.line,
f.encoding` over the join. -/
def searchLineMode (st : DBState) (pats : List (List Char)) (t : Nat)
    (ts : List Nat) : List (List Nat × Nat × Nat × Option (List Char)) :=
  ((st.finja.filter fun i => i.token_id == t).map fun i =>
    (st.files.filter fun f => f.id == i.file_id &&
      (ts.all fun q => st.finja.any fun i2 => i2.file_id == f.id &&
        i2.line == i.line && i2.token_id == q) &&
      passesIgnores pats f.path).map fun f =>
      (f.path, f.id, i.line, f.encoding)).flatten

/-! ## The result formatter's sort (`sort_format_result`)

`sorted(res_set, key=lambda x: (x[0], -x[2]), reverse=True)` where the
rows are `(decompressed_path, file_id, line, encoding)`.  Python `sorted`
is stable; with `reverse=True`, `a` precedes `b` exactly when
`key(a) > key(b)`, or the keys are equal and `a` preceded `b` in the
input.  A stable insertion sort with the relation `key(b) ≤ key(a)`
computes the identical list. -/

/-- A decompressed line-mode result row:
`(path, file_id, line, encoding)`. -/
abbrev ResRow := List Char × Nat × Nat × Option (List Char)

/-- Python string `<` (lexicographic by code point). -/
def strLtB : List Char → List Char → Bool
  | [], [] => false
  | [], _ :: _ => true
  | _ :: _, [] => false
  | a :: as, b :: bs =>
    if a.toNat < b.toNat then true
    else if b.toNat < a.toNat then false
    else strLtB as bs

/-- Python tuple `<` on the sort keys `(path, -line)`:
`(p₁, -l₁) < (p₂, -l₂)` iff `p₁ < p₂`, or `p₁ = p₂` and `l₂ < l₁`. -/
def keyLtB (a b : ResRow) : Bool :=
  strLtB a.1 b.1 || (a.1 == b.1 && decide (b.2.2.1 < a.2.2.1))

/-- Stable insertion preserving descending key order: `r` is placed
before the first element whose key is not larger. -/
def sortInsert (r : ResRow) : List ResRow → List ResRow
  | [] => [r]
  | x :: xs =>
    if keyLtB r x then x :: sortInsert r xs
    else r :: x :: xs

/-- `sorted(rows, key=lambda x: (x[0], -x[2]), reverse=True)`. -/
def sort_format_rows : List ResRow → List ResRow
  | [] => []
  | r :: rest => sortInsert r (sort_format_rows rest)

/-! ## The token dictionary (`TokenDict`) -/

/-- The in-memory `TokenDict`: the cached map, the id counter seeded from
`MAX_ID` (default 41), and the pending insert buffer. -/
structure TokenDictState where
  cache : List (List Nat × Nat)
  token_id : Nat
  bulk_insert : List (Nat × List Nat)
  deriving DecidableEq

/-- The persisted side of the dictionary: the `token` table (rows
`(string, id)`) and the `MAX_ID` key of `key_value`. -/
structure TokenDB where
  token : List (List Nat × Nat)
  max_id_key : Option Nat
  deriving DecidableEq

/-- `SELECT id FROM token WHERE string = ?`. -/
def lookupTok (table : List (List Nat × Nat)) (s : List Nat) : Option Nat :=
  (table.find? fun r => r.1 == s).map (·.2)

/-- `TokenDict.__getitem__` (via `__missing__`): consult the in-memory
map; on miss `SELECT` from the table and cache; if absent there too,
increment `token_id`, record the pair in `bulk_insert`, cache, return.
Reads but never writes the database. -/
def token_dict_get (d : TokenDictState) (db : TokenDB) (key : List Nat) :
    TokenDictState × TokenDB × Nat :=
  match (d.cache.find? fun r => r.1 == key).map (·.2) with
  | some i => (d, db, i)
  | none =>
    match lookupTok db.token key with
    | some i => ({ d with cache := d.cache ++ [(key, i)] }, db, i)
    | none =>
      let nid := d.token_id + 1
      (⟨d.cache ++ [(key, nid)], nid, d.bulk_insert ++ [(nid, key)]⟩,
        db, nid)

/-- `TokenDict.commit`: flush the pending buffer into the `token` table,
persist `MAX_ID`, return the number of new rows.  Called only by the
indexer (`read_index`), never by `search`. -/
def token_dict_commit (d : TokenDictState) (db : TokenDB) :
    TokenDictState × TokenDB × Nat :=
  ({ d with bulk_insert := [] },
   ⟨db.token ++ d.bulk_insert.map (fun r => (r.2, r.1)),
     some d.token_id⟩,
   d.bulk_insert.length)

/-- The token resolution a search performs:
`[token_dict[cleanup(x)] for x in search]` — a sequence of dictionary
lookups threading the dictionary and database states. -/
def search_resolve (d : TokenDictState) (db : TokenDB)
    (qs : List (List Nat)) : TokenDictState × TokenDB × List Nat :=
  match qs with
  | [] => (d, db, [])
  | q :: rest =>
    let r := token_dict_get d db q
    let r2 := search_resolve r.1 r.2.1 rest
    (r2.1, r2.2.1, r.2.2 :: r2.2.2)

/-! ## The tokenizer's positive pass (pass 0)

`_positive_word_match = re.compile("\w+")`; `regex_parser_postive` emits,
per line, `cleanup(match.group(0))` for every match of `finditer`, i.e.
for every maximal run of word characters.  Python 3 `\w` matches the
Unicode word characters (alphanumerics plus underscore); `isPyWordChar`
renders that class exactly for code points below U+0100 (characters at or
above U+0100 are outside the inputs considered here). -/

/-- Python's `\w` character class, exact on code points below U+0100:
ASCII alphanumerics and underscore, plus the Latin-1 word characters
ª ² ³ µ ¹ º ¼ ½ ¾ and the letters À–Ö, Ø–ö, ø–ÿ. -/
def isPyWordChar (c : Char) : Bool :=
  let n := c.toNat
  (48 ≤ n && n ≤ 57) || (65 ≤ n && n ≤ 90) || n == 95 ||
  (97 ≤ n && n ≤ 122) ||
  n == 0xAA || n == 0xB2 || n == 0xB3 || n == 0xB5 || n == 0xB9 ||
  n == 0xBA || n == 0xBC || n == 0xBD || n == 0xBE ||
  (0xC0 ≤ n && n ≤ 0xD6) || (0xD8 ≤ n && n ≤ 0xF6) ||
  (0xF8 ≤ n && n ≤ 0xFF)

/-- The class `[A-Za-z0-9_]` named by the specification. -/
def isAsciiWord (c : Char) : Bool :=
  let n := c.toNat
  (48 ≤ n && n ≤ 57) || (65 ≤ n && n ≤ 90) || n == 95 ||
  (97 ≤ n && n ≤ 122)

/-- The maximal runs of `p`-characters of a list, in order
(`re.finditer` of `[p]+`); fuel-structured so the definition reduces in
the kernel. -/
def maximalRunsAux (p : α → Bool) : Nat → List α → List (List α)
  | 0, _ => []
  | _, [] => []
  | fuel + 1, c :: cs =>
    if p c then (c :: cs.takeWhile p) :: maximalRunsAux p fuel (cs.dropWhile p)
    else maximalRunsAux p fuel cs

/-- The maximal runs of `p`-characters of a list. -/
def maximalRuns (p : α → Bool) (l : List α) : List (List α) :=
  maximalRunsAux p l.length l

/-- Pass 0 of the tokenizer on one line: normalize each maximal `\w`-run
(modelled on code points, exact for the Latin-1 range). -/
def pass0_tokens (line : List Char) : List (List Nat) :=
  (maximalRuns isPyWordChar line).filterMap fun run =>
    cleanup (run.map Char.toNat)

/-- A maximal-run occurrence: `r` is non-empty, all its characters
satisfy `p`, and it occurs in `l` with a non-`p` character (or the list
boundary) on each side. -/
def IsMaxRun (p : α → Bool) (l r : List α) : Prop :=
  r ≠ [] ∧ (∀ c ∈ r, p c = true) ∧
  ∃ pre post, l = pre ++ r ++ post ∧
    (∀ c, pre.getLast? = some c → p c = false) ∧
    (∀ c, post.head? = some c → p c = false)

/-! # Part 2: theorems -/

example : md5digest [] =
    [212, 29, 140, 217, 143, 0, 178, 4, 233, 128, 9, 152, 236, 248, 66, 126] := by
  decide

example : md5digest [97, 98, 99] =
    [144, 1, 80, 152, 60, 210, 79, 176, 214, 150, 63, 125, 40, 225, 127, 114] := by
  decide

example : cleanup [32, 72, 73, 32] = some [104, 105] := by decide

example : cleanup [32, 72, 32] = none := by decide

/-! ## Lemmas about stripping and lowercasing -/

theorem lowerB_lowerB (b : Nat) : lowerB (lowerB b) = lowerB b := by
  unfold lowerB
  split_ifs <;> omega

theorem isWS_lowerB (b : Nat) : isWS (lowerB b) = isWS b := by
  by_cases h : 65 ≤ b ∧ b ≤ 90
  · have h1 : isWS (b + 32) = false := by
      unfold isWS
      simp only [Bool.or_eq_false_iff, decide_eq_false_iff_not]
      omega
    have h2 : isWS b = false := by
      unfold isWS
      simp only [Bool.or_eq_false_iff, decide_eq_false_iff_not]
      omega
    simp [lowerB, h, h1, h2]
  · simp [lowerB, h]

theorem asciiLower_asciiLower (l : List Nat) :
    asciiLower (asciiLower l) = asciiLower l := by
  unfold asciiLower
  rw [List.map_map]
  exact List.map_congr_left fun a _ => lowerB_lowerB a

theorem asciiLower_length (l : List Nat) :
    (asciiLower l).length = l.length := by
  simp [asciiLower]

theorem pyStrip_asciiLower (l : List Nat) :
    pyStrip (asciiLower l) = asciiLower (pyStrip l) := by
  have hfun : (isWS ∘ lowerB) = isWS := funext isWS_lowerB
  unfold pyStrip asciiLower
  rw [List.dropWhile_map, hfun, ← List.map_reverse, List.dropWhile_map, hfun,
    ← List.map_reverse]

theorem dropWhile_head?_false (p : α → Bool) (l : List α) (x : α)
    (h : (l.dropWhile p).head? = some x) : p x = false := by
  have hd := List.head?_dropWhile_not p l
  rw [h] at hd
  exact hd

theorem dropWhile_eq_self_of_head? (p : α → Bool) (l : List α)
    (h : ∀ x, l.head? = some x → p x = false) : l.dropWhile p = l := by
  cases l with
  | nil => rfl
  | cons a t =>
    have ha := h a rfl
    simp [List.dropWhile_cons, ha]

theorem getLast?_dropWhile (p : α → Bool) (l : List α)
    (h : l.dropWhile p ≠ []) : (l.dropWhile p).getLast? = l.getLast? := by
  induction l with
  | nil => simp at h
  | cons a t ih =>
    by_cases hp : p a
    · rw [List.dropWhile_cons_of_pos hp] at h ⊢
      rw [ih h]
      have ht : t ≠ [] := by
        intro he
        rw [he] at h
        simp at h
      cases t with
      | nil => exact absurd rfl ht
      | cons b u => simp [List.getLast?_cons_cons]
    · rw [List.dropWhile_cons_of_neg hp]

theorem pyStrip_idem (l : List Nat) : pyStrip (pyStrip l) = pyStrip l := by
  unfold pyStrip
  have step1 :
      (((l.dropWhile isWS).reverse.dropWhile isWS).reverse).dropWhile isWS =
        ((l.dropWhile isWS).reverse.dropWhile isWS).reverse := by
    apply dropWhile_eq_self_of_head?
    intro x hx
    rw [List.head?_reverse] at hx
    by_cases h2 : (l.dropWhile isWS).reverse.dropWhile isWS = []
    · rw [h2] at hx
      simp at hx
    · rw [getLast?_dropWhile isWS _ h2, List.getLast?_reverse] at hx
      exact dropWhile_head?_false isWS l x hx
  rw [step1, List.reverse_reverse]
  have step2 :
      ((l.dropWhile isWS).reverse.dropWhile isWS).dropWhile isWS =
        (l.dropWhile isWS).reverse.dropWhile isWS := by
    apply dropWhile_eq_self_of_head?
    intro x hx
    exact dropWhile_head?_false isWS _ x hx
  rw [step2]

/-! ## Claim C4: normalization fixed point -/

/-- C4 counterexample: the claim "for every string s with normalize(s)
defined, normalize(normalize(s)) = normalize(s)" fails on the code at the
17-byte token "abcdefghijklmnopq".  Its MD5 digest contains the uppercase
ASCII bytes 69 ('E') and 81 ('Q'); `cleanup` applied to the 16-byte digest
takes the short branch and lowercases those bytes, so the digest is not a
fixed point. -/
theorem claim_C4_counterexample :
    cleanup exLongToken ≠ none ∧
      (cleanup exLongToken).bind cleanup ≠ cleanup exLongToken := by
  decide

/-- C4 (amended): the normalizer is a fixed point on the short branch: for
every byte string whose stripped form has length between 2 and 16,
`cleanup (cleanup s) = cleanup s`.  (The digest branch is not a fixed
point: `cleanup` of a 16-byte digest strips and lowercases the digest's
bytes, see the counterexample.) -/
theorem claim_C4 (s : List Nat) (h2 : 2 ≤ (pyStrip s).length)
    (h16 : (pyStrip s).length ≤ 16) :
    (cleanup s).bind cleanup = cleanup s := by
  have hfirst : cleanup s = some (asciiLower (pyStrip s)) := by
    unfold cleanup
    rw [if_neg (by omega), if_pos h16]
  rw [hfirst]
  show cleanup (asciiLower (pyStrip s)) = some (asciiLower (pyStrip s))
  unfold cleanup
  rw [pyStrip_asciiLower, pyStrip_idem, asciiLower_length]
  rw [if_neg (by omega), if_pos h16, asciiLower_asciiLower]

/-- Witness for C4 at the concrete token "HI". -/
theorem claim_C4_witness :
    2 ≤ (pyStrip [72, 73]).length ∧ (pyStrip [72, 73]).length ≤ 16 ∧
      (cleanup [72, 73]).bind cleanup = cleanup [72, 73] :=
  ⟨by decide, by decide, claim_C4 [72, 73] (by decide) (by decide)⟩

/-! ## Lemmas about the path-segment table -/

theorem le_foldr_max (l : List Nat) (x : Nat) (hx : x ∈ l) :
    x ≤ l.foldr max 0 := by
  induction l with
  | nil => simp at hx
  | cons a rest ih =>
    rcases List.mem_cons.mp hx with h | h
    · subst h
      exact le_max_left _ _
    · exact le_trans (ih h) (le_max_right _ _)

theorem nextSegId_fresh (t : PathTable) (r : Nat × List Char) (hr : r ∈ t) :
    r.1 ≠ nextSegId t := by
  have hle : r.1 ≤ (t.map (·.1)).foldr max 0 :=
    le_foldr_max _ _ (List.mem_map_of_mem _ hr)
  unfold nextSegId
  omega

theorem lookupSegId_none (t : PathTable) (s : List Char)
    (h : lookupSegId t s = none) : ∀ r ∈ t, r.2 ≠ s := by
  intro r hr
  unfold lookupSegId at h
  rw [Option.map_eq_none'] at h
  have := List.find?_eq_none.mp h r hr
  simpa using this

theorem internSeg_wf (t : PathTable) (s : List Char) (hwf : PathTableWF t) :
    PathTableWF (internSeg t s).1 := by
  unfold internSeg
  cases h : lookupSegId t s with
  | some i => exact hwf
  | none =>
    refine ⟨?_, ?_⟩
    · rw [List.pairwise_append]
      refine ⟨hwf.ids_unique, List.pairwise_singleton _ _, ?_⟩
      intro a ha b hb
      rw [List.mem_singleton] at hb
      subst hb
      exact nextSegId_fresh t a ha
    · rw [List.pairwise_append]
      refine ⟨hwf.strs_unique, List.pairwise_singleton _ _, ?_⟩
      intro a ha b hb
      rw [List.mem_singleton] at hb
      subst hb
      exact lookupSegId_none t s h a ha

theorem lookupSegStr_of_mem (t : PathTable) (r : Nat × List Char)
    (hwf : t.Pairwise fun a b => a.1 ≠ b.1) (hr : r ∈ t) :
    lookupSegStr t r.1 = some r.2 := by
  induction t with
  | nil => simp at hr
  | cons a rest ih =>
    rw [List.pairwise_cons] at hwf
    unfold lookupSegStr
    rcases List.mem_cons.mp hr with h | h
    · subst h
      rw [List.find?_cons_of_pos _ (by simp)]
      rfl
    · rw [List.find?_cons_of_neg _ (by simp; exact fun he => absurd he (hwf.1 r h))]
      exact ih hwf.2 h

theorem internSeg_lookup (t : PathTable) (s : List Char)
    (hwf : PathTableWF t) :
    lookupSegStr (internSeg t s).1 (internSeg t s).2 = some s := by
  unfold internSeg
  cases h : lookupSegId t s with
  | some i =>
    show lookupSegStr t i = some s
    unfold lookupSegId at h
    rw [Option.map_eq_some'] at h
    obtain ⟨r, hfind, hi⟩ := h
    have hmem := List.mem_of_find?_eq_some hfind
    have hps : r.2 = s := by simpa using List.find?_some hfind
    have := lookupSegStr_of_mem t r hwf.ids_unique hmem
    rw [hi, hps] at this
    exact this
  | none =>
    show lookupSegStr (t ++ [(nextSegId t, s)]) (nextSegId t) = some s
    unfold lookupSegStr
    rw [List.find?_append]
    have hnone : t.find? (fun r => r.1 == nextSegId t) = none := by
      rw [List.find?_eq_none]
      intro r hr
      simpa using nextSegId_fresh t r hr
    rw [hnone, Option.none_or, List.find?_cons_of_pos _ (by simp)]
    rfl

theorem internSeg_preserves_lookup (t : PathTable) (s' : List Char)
    (i : Nat) (s : List Char) (h : lookupSegStr t i = some s) :
    lookupSegStr (internSeg t s').1 i = some s := by
  unfold internSeg
  cases hl : lookupSegId t s' with
  | some j => exact h
  | none =>
    show lookupSegStr (t ++ [(nextSegId t, s')]) i = some s
    unfold lookupSegStr at h ⊢
    rw [Option.map_eq_some'] at h
    obtain ⟨r, hfind, hs⟩ := h
    rw [List.find?_append, hfind]
    simp [hs]

theorem internSegs_wf (segs : List (List Char)) (t : PathTable)
    (hwf : PathTableWF t) : PathTableWF (internSegs t segs).1 := by
  induction segs generalizing t with
  | nil => exact hwf
  | cons s rest ih =>
    unfold internSegs
    exact ih _ (internSeg_wf t s hwf)

theorem internSegs_preserves_lookup (segs : List (List Char))
    (t : PathTable) (i : Nat) (s : List Char)
    (h : lookupSegStr t i = some s) :
    lookupSegStr (internSegs t segs).1 i = some s := by
  induction segs generalizing t with
  | nil => exact h
  | cons s' rest ih =>
    unfold internSegs
    exact ih _ (internSeg_preserves_lookup t s' i s h)

theorem internSegs_lookup (segs : List (List Char)) (t : PathTable)
    (hwf : PathTableWF t) :
    lookupSegs (internSegs t segs).1 (internSegs t segs).2 = some segs := by
  induction segs generalizing t with
  | nil => rfl
  | cons s rest ih =>
    unfold internSegs lookupSegs
    have h1 : lookupSegStr (internSegs (internSeg t s).1 rest).1
        (internSeg t s).2 = some s :=
      internSegs_preserves_lookup rest _ _ _ (internSeg_lookup t s hwf)
    rw [h1, ih _ (internSeg_wf t s hwf)]

/-! ## Lemmas about u32 packing -/

theorem unpackU32Aux_fuel (f1 : Nat) :
    ∀ (f2 : Nat) (b : List Nat), b.length ≤ f1 → b.length ≤ f2 →
      unpackU32Aux f1 b = unpackU32Aux f2 b := by
  induction f1 with
  | zero =>
    intro f2 b h1 _
    have hb : b = [] := List.length_eq_zero.mp (Nat.le_zero.mp h1)
    subst hb
    cases f2 <;> rfl
  | succ f ih =>
    intro f2 b h1 h2
    cases b with
    | nil => cases f2 <;> rfl
    | cons x xs =>
      cases f2 with
      | zero => simp at h2
      | succ g =>
        show wordAt (x :: xs) :: unpackU32Aux f ((x :: xs).drop 4) =
          wordAt (x :: xs) :: unpackU32Aux g ((x :: xs).drop 4)
        congr 1
        apply ih
        · simp only [List.length_drop, List.length_cons]
          simp only [List.length_cons] at h1
          omega
        · simp only [List.length_drop, List.length_cons]
          simp only [List.length_cons] at h2
          omega

theorem unpackU32_cons4 (a b c d : Nat) (r : List Nat) :
    unpackU32 (a :: b :: c :: d :: r) =
      wordAt (a :: b :: c :: d :: r) :: unpackU32 r := by
  unfold unpackU32
  have hlen : (a :: b :: c :: d :: r).length = r.length + 4 := by
    simp only [List.length_cons]
  rw [hlen]
  show wordAt (a :: b :: c :: d :: r) ::
      unpackU32Aux (r.length + 3) ((a :: b :: c :: d :: r).drop 4) =
    wordAt (a :: b :: c :: d :: r) :: unpackU32Aux r.length r
  congr 1
  exact unpackU32Aux_fuel _ _ r (by omega) le_rfl

theorem unpackU32_packU32 (ids : List Nat)
    (h : ∀ i ∈ ids, i < 4294967296) : unpackU32 (packU32 ids) = ids := by
  induction ids with
  | nil => rfl
  | cons i rest ih =>
    have hpack : packU32 (i :: rest) =
        i % 256 :: i / 256 % 256 :: i / 65536 % 256 :: i / 16777216 % 256 ::
          packU32 rest := by
      simp [packU32, le4]
    have hi : i < 4294967296 := h i (List.mem_cons_self i rest)
    rw [hpack, unpackU32_cons4]
    have hword : wordAt (i % 256 :: i / 256 % 256 :: i / 65536 % 256 ::
        i / 16777216 % 256 :: packU32 rest) = i := by
      unfold wordAt
      simp only [List.getD_cons_zero, List.getD_cons_succ]
      omega
    rw [hword, ih fun j hj => h j (List.mem_cons_of_mem i hj)]

/-! ## Lemmas about split and join -/

theorem pySplit_ne_nil (sep : Char) (l : List Char) :
    pySplit sep l ≠ [] := by
  cases l with
  | nil => simp [pySplit]
  | cons c rest =>
    unfold pySplit
    by_cases h : c == sep
    · simp [h]
    · simp only [h]
      cases pySplit sep rest <;> simp

theorem pyJoin_pySplit (sep : Char) (l : List Char) :
    pyJoin sep (pySplit sep l) = l := by
  induction l with
  | nil => rfl
  | cons c rest ih =>
    unfold pySplit
    by_cases h : c == sep
    · simp only [h, if_pos]
      have hne := pySplit_ne_nil sep rest
      cases hsp : pySplit sep rest with
      | nil => exact absurd hsp hne
      | cons s ss =>
        rw [hsp] at ih
        show pyJoin sep ([] :: s :: ss) = c :: rest
        unfold pyJoin
        rw [List.nil_append]
        have hc : c = sep := by simpa using h
        rw [hc, ih]
    · simp only [h, if_neg, Bool.false_eq_true, not_false_iff]
      have hne := pySplit_ne_nil sep rest
      cases hsp : pySplit sep rest with
      | nil => exact absurd hsp hne
      | cons s ss =>
        rw [hsp] at ih
        cases ss with
        | nil =>
          show pyJoin sep [c :: s] = c :: rest
          unfold pyJoin at ih ⊢
          rw [← ih]
        | cons s2 ss2 =>
          show pyJoin sep ((c :: s) :: s2 :: ss2) = c :: rest
          unfold pyJoin at ih ⊢
          rw [← ih]
          rfl

/-! ## Claim C5: path compression round trip -/

/-- C5: for every path string `p` (and in particular one whose segments do
not contain the host separator) and every well-formed `path_token` table,
decompressing the compressed path under the updated database returns `p`,
provided the interned segment ids fit in the packed u32 cells. -/
theorem claim_C5 (t : PathTable) (sep : Char) (p : List Char)
    (hwf : PathTableWF t)
    (_hseg : ∀ s ∈ pySplit sep p, sep ∉ s)
    (h32 : ∀ i ∈ (internSegs t (pySplit sep p)).2, i < 4294967296) :
    path_decompress (path_compress t sep p).1 sep
      (path_compress t sep p).2 = some p := by
  show (lookupSegs (internSegs t (pySplit sep p)).1
      (unpackU32 (packU32 (internSegs t (pySplit sep p)).2))).map
      (pyJoin sep) = some p
  rw [unpackU32_packU32 _ h32, internSegs_lookup _ _ hwf]
  simp [pyJoin_pySplit]

/-- Witness for C5 at the concrete path "a/b" over the empty table. -/
theorem claim_C5_witness :
    (∀ s ∈ pySplit '/' ['a', '/', 'b'], '/' ∉ s) ∧
      (∀ i ∈ (internSegs [] (pySplit '/' ['a', '/', 'b'])).2,
        i < 4294967296) ∧
      path_decompress (path_compress [] '/' ['a', '/', 'b']).1 '/'
        (path_compress [] '/' ['a', '/', 'b']).2 = some ['a', '/', 'b'] :=
  ⟨by decide, by decide,
    claim_C5 [] '/' ['a', '/', 'b'] ⟨List.Pairwise.nil, List.Pairwise.nil⟩
      (by decide) (by decide)⟩

/-! ## Lemmas about the hex ignore filter -/

theorem hexBytes_append (a b : List Nat) :
    hexBytes (a ++ b) = hexBytes a ++ hexBytes b := by
  simp [hexBytes]

theorem leadsWith_append [BEq α] [LawfulBEq α] (pat r : List α) :
    leadsWith pat (pat ++ r) = true := by
  induction pat with
  | nil => rfl
  | cons a p ih => simp [leadsWith, ih]

theorem occursIn_of_leadsWith [BEq α] (pat l : List α)
    (h : leadsWith pat l = true) : occursIn pat l = true := by
  cases l with
  | nil =>
    cases pat with
    | nil => rfl
    | cons a p => simp [leadsWith] at h
  | cons b rest => simp [occursIn, h]

theorem occursIn_append_right [BEq α] (pat x y : List α)
    (h : occursIn pat y = true) : occursIn pat (x ++ y) = true := by
  induction x with
  | nil => exact h
  | cons a x' ih => simp [occursIn, ih]

theorem hex_mem_occursIn (tid : Nat) (pids : List Nat) (h : tid ∈ pids) :
    occursIn (hexBytes (le4 tid)) (hexBytes (packU32 pids)) = true := by
  induction pids with
  | nil => simp at h
  | cons p rest ih =>
    have hsplit : hexBytes (packU32 (p :: rest)) =
        hexBytes (le4 p) ++ hexBytes (packU32 rest) := by
      rw [show packU32 (p :: rest) = le4 p ++ packU32 rest by
        simp [packU32]]
      exact hexBytes_append _ _
    rw [hsplit]
    rcases List.mem_cons.mp h with he | he
    · subst he
      exact occursIn_of_leadsWith _ _ (leadsWith_append _ _)
    · exact occursIn_append_right _ _ _ (ih he)

theorem lookupSegs_mem (t : PathTable) (ids : List Nat)
    (segs : List (List Char)) (h : lookupSegs t ids = some segs)
    (s : List Char) (hs : s ∈ segs) :
    ∃ i ∈ ids, lookupSegStr t i = some s := by
  induction ids generalizing segs with
  | nil =>
    unfold lookupSegs at h
    cases h
    simp at hs
  | cons i rest ih =>
    unfold lookupSegs at h
    cases hstr : lookupSegStr t i with
    | none => rw [hstr] at h; exact absurd h (by simp)
    | some s0 =>
      rw [hstr] at h
      cases hrest : lookupSegs t rest with
      | none => rw [hrest] at h; exact absurd h (by simp)
      | some ss0 =>
        rw [hrest] at h
        cases h
        rcases List.mem_cons.mp hs with he | he
        · subst he
          exact ⟨i, List.mem_cons_self _ _, hstr⟩
        · obtain ⟨j, hj, hjl⟩ := ih ss0 hrest he
          exact ⟨j, List.mem_cons_of_mem _ hj, hjl⟩

theorem pairwise_snd_eq (t : PathTable)
    (hpw : t.Pairwise fun a b => a.2 ≠ b.2) (r r' : Nat × List Char)
    (hr : r ∈ t) (hr' : r' ∈ t) (he : r.2 = r'.2) : r = r' := by
  induction t with
  | nil => simp at hr
  | cons a rest ih =>
    rw [List.pairwise_cons] at hpw
    rcases List.mem_cons.mp hr with h1 | h1 <;>
      rcases List.mem_cons.mp hr' with h2 | h2
    · rw [h1, h2]
    · subst h1
      exact absurd he (hpw.1 r' h2)
    · subst h2
      exact absurd he.symm (hpw.1 r h1)
    · exact ih hpw.2 h1 h2

theorem lookupSegStr_inj (t : PathTable) (hwf : PathTableWF t)
    (i j : Nat) (s : List Char) (hi : lookupSegStr t i = some s)
    (hj : lookupSegStr t j = some s) : i = j := by
  unfold lookupSegStr at hi hj
  rw [Option.map_eq_some'] at hi hj
  obtain ⟨r, hrf, hrs⟩ := hi
  obtain ⟨r', hrf', hrs'⟩ := hj
  have hri : r.1 = i := by simpa using List.find?_some hrf
  have hrj : r'.1 = j := by simpa using List.find?_some hrf'
  have heq : r = r' :=
    pairwise_snd_eq t hwf.strs_unique r r'
      (List.mem_of_find?_eq_some hrf) (List.mem_of_find?_eq_some hrf')
      (hrs.trans hrs'.symm)
  rw [← hri, ← hrj, heq]

theorem prepare_ignores_wf (igns : List (List Char)) (t : PathTable)
    (hwf : PathTableWF t) : PathTableWF (prepare_ignores t igns).1 := by
  induction igns generalizing t with
  | nil => exact hwf
  | cons s rest ih =>
    unfold prepare_ignores
    exact ih _ (internSeg_wf t s hwf)

theorem prepare_ignores_preserves_lookup (igns : List (List Char))
    (t : PathTable) (i : Nat) (s : List Char)
    (h : lookupSegStr t i = some s) :
    lookupSegStr (prepare_ignores t igns).1 i = some s := by
  induction igns generalizing t with
  | nil => exact h
  | cons s' rest ih =>
    unfold prepare_ignores
    exact ih _ (internSeg_preserves_lookup t s' i s h)

theorem prepare_ignores_spec (igns : List (List Char)) (t : PathTable)
    (hwf : PathTableWF t) (g : List Char) (hg : g ∈ igns) :
    ∃ tid, hexBytes (le4 tid) ∈ (prepare_ignores t igns).2 ∧
      lookupSegStr (prepare_ignores t igns).1 tid = some g := by
  induction igns generalizing t with
  | nil => simp at hg
  | cons s rest ih =>
    unfold prepare_ignores
    rcases List.mem_cons.mp hg with he | he
    · subst he
      refine ⟨(internSeg t g).2, List.mem_cons_self _ _, ?_⟩
      exact prepare_ignores_preserves_lookup rest _ _ _
        (internSeg_lookup t g hwf)
    · obtain ⟨tid, hpat, hlook⟩ := ih _ (internSeg_wf t s hwf) he
      exact ⟨tid, List.mem_cons_of_mem _ hpat, hlook⟩

/-! ## Claim C6: ignore filter soundness -/

/-- C6: for a search whose ignore patterns were produced by
`prepare_ignores`, any file whose packed path passes the conjunction of
`hex(f.path) NOT LIKE '%pat%'` filters decompresses (if it decompresses at
all) to a segment list containing none of the ignored segments.  Since
every row of the result set passes those filters, no result path contains
an ignored segment as a path component. -/
theorem claim_C6 (t : PathTable) (igns : List (List Char))
    (pids : List Nat) (segs : List (List Char)) (hwf : PathTableWF t)
    (hkeep : passesIgnores (prepare_ignores t igns).2 (packU32 pids) = true)
    (hdec : lookupSegs (prepare_ignores t igns).1 pids = some segs) :
    ∀ g ∈ igns, g ∉ segs := by
  intro g hg hmem
  obtain ⟨tid, hpat, hlook⟩ := prepare_ignores_spec igns t hwf g hg
  obtain ⟨i, hi, hels⟩ := lookupSegs_mem _ _ _ hdec g hmem
  have hij : i = tid :=
    lookupSegStr_inj _ (prepare_ignores_wf igns t hwf) i tid g hels hlook
  have hocc := hex_mem_occursIn tid pids (hij ▸ hi)
  unfold passesIgnores at hkeep
  rw [List.all_eq_true] at hkeep
  have hbad := hkeep _ hpat
  rw [hocc] at hbad
  simp at hbad

/-- Witness for C6: table with segment "a" (id 5), ignoring segment "ts";
the packed path `[5]` passes the filter and decompresses to `["a"]`. -/
theorem claim_C6_witness :
    passesIgnores (prepare_ignores [(5, ['a'])] [['t', 's']]).2
        (packU32 [5]) = true ∧
      lookupSegs (prepare_ignores [(5, ['a'])] [['t', 's']]).1 [5] =
        some [['a']] ∧
      ∀ g ∈ [['t', 's']], g ∉ [['a']] :=
  ⟨by decide, by decide,
    claim_C6 [(5, ['a'])] [['t', 's']] [5] [['a']]
      ⟨by decide, by decide⟩ (by decide) (by decide)⟩

/-! ## Lemmas about the search query semantics -/

theorem fileModeHit_iff (st : DBState) (pats : List (List Char)) (t : Nat)
    (ts : List Nat) (f : FileRow) :
    fileModeHit st pats t ts f = true ↔
      (∃ i ∈ st.finja, i.file_id = f.id ∧ i.token_id = t) ∧
      (∀ q ∈ ts, ∃ i ∈ st.finja, i.file_id = f.id ∧ i.token_id = q) ∧
      passesIgnores pats f.path = true := by
  unfold fileModeHit
  simp [List.any_eq_true, List.all_eq_true]
  tauto

theorem lineModeHit_iff (st : DBState) (pats : List (List Char)) (t : Nat)
    (ts : List Nat) (f : FileRow) (l : Nat) :
    lineModeHit st pats t ts f l = true ↔
      (∃ i ∈ st.finja, i.file_id = f.id ∧ i.token_id = t ∧ i.line = l) ∧
      (∀ q ∈ ts, ∃ i ∈ st.finja, i.file_id = f.id ∧ i.line = l ∧
        i.token_id = q) ∧
      passesIgnores pats f.path = true := by
  unfold lineModeHit
  simp [List.any_eq_true, List.all_eq_true, and_assoc]

theorem mem_searchFileMode (st : DBState) (pats : List (List Char))
    (t : Nat) (ts : List Nat) (pr : List Nat × Nat) :
    pr ∈ searchFileMode st pats t ts ↔
      ∃ f ∈ st.files, fileModeHit st pats t ts f = true ∧
        pr = (f.path, f.id) := by
  unfold searchFileMode
  simp only [List.mem_map, List.mem_filter]
  constructor
  · rintro ⟨f, ⟨hf, hhit⟩, heq⟩
    exact ⟨f, hf, hhit, heq.symm⟩
  · rintro ⟨f, hf, hhit, heq⟩
    exact ⟨f, ⟨hf, hhit⟩, heq.symm⟩

theorem mem_searchLineMode (st : DBState) (pats : List (List Char))
    (t : Nat) (ts : List Nat)
    (row : List Nat × Nat × Nat × Option (List Char)) :
    row ∈ searchLineMode st pats t ts ↔
      ∃ i ∈ st.finja, i.token_id = t ∧ ∃ f ∈ st.files,
        f.id = i.file_id ∧
        (∀ q ∈ ts, ∃ i2 ∈ st.finja, i2.file_id = f.id ∧
          i2.line = i.line ∧ i2.token_id = q) ∧
        passesIgnores pats f.path = true ∧
        row = (f.path, f.id, i.line, f.encoding) := by
  unfold searchLineMode
  simp only [List.mem_flatten, List.mem_map, List.mem_filter,
    Bool.and_eq_true, List.all_eq_true, List.any_eq_true, beq_iff_eq]
  constructor
  · rintro ⟨inner, ⟨i, ⟨hi, htok⟩, hinner⟩, hrow⟩
    subst hinner
    rw [List.mem_map] at hrow
    obtain ⟨f, hfmem, heq⟩ := hrow
    rw [List.mem_filter] at hfmem
    obtain ⟨hf, hcond⟩ := hfmem
    simp only [Bool.and_eq_true, List.all_eq_true, List.any_eq_true,
      beq_iff_eq] at hcond
    obtain ⟨⟨hfid2, hall2⟩, hpass2⟩ := hcond
    refine ⟨i, hi, htok, f, hf, hfid2, ?_, hpass2, heq.symm⟩
    intro q hq
    obtain ⟨i2, hi2, ⟨h1, h2⟩, h3⟩ := hall2 q hq
    exact ⟨i2, hi2, h1, h2, h3⟩
  · rintro ⟨i, hi, htok, f, hf, hfid, hall, hpass, hrow⟩
    refine ⟨(st.files.filter fun f => f.id == i.file_id &&
      (ts.all fun q => st.finja.any fun i2 => i2.file_id == f.id &&
        i2.line == i.line && i2.token_id == q) &&
      passesIgnores pats f.path).map fun f =>
        (f.path, f.id, i.line, f.encoding), ⟨i, ⟨hi, htok⟩, rfl⟩, ?_⟩
    rw [List.mem_map]
    refine ⟨f, ?_, hrow.symm⟩
    rw [List.mem_filter]
    refine ⟨hf, ?_⟩
    simp only [Bool.and_eq_true, List.all_eq_true, List.any_eq_true,
      beq_iff_eq]
    refine ⟨⟨hfid, ?_⟩, hpass⟩
    intro q hq
    obtain ⟨i2, hi2, h1, h2, h3⟩ := hall q hq
    exact ⟨i2, hi2, ⟨h1, h2⟩, h3⟩

/-! ## Claim C1: conjunction correctness of the search query -/

/-- C1: over an indexed database (every posting references an existing
file row), the file-mode query returns a row for file id `fid` exactly
when every query term has a posting for `fid` (the intersection of the
per-token file-id match sets), and the line-mode query returns a row for
`(fid, l)` exactly when every query term has a posting for `fid` at line
`l`. -/
theorem claim_C1 (st : DBState) (t : Nat) (ts : List Nat)
    (hwf : ∀ i ∈ st.finja, ∃ f ∈ st.files, f.id = i.file_id)
    (fid l : Nat) :
    ((∃ p, (p, fid) ∈ searchFileMode st [] t ts) ↔
      ∀ q ∈ t :: ts, ∃ i ∈ st.finja, i.token_id = q ∧ i.file_id = fid) ∧
    ((∃ p e, (p, fid, l, e) ∈ searchLineMode st [] t ts) ↔
      ∀ q ∈ t :: ts, ∃ i ∈ st.finja, i.token_id = q ∧ i.file_id = fid ∧
        i.line = l) := by
  constructor
  · constructor
    · rintro ⟨p, hmem⟩
      rw [mem_searchFileMode] at hmem
      obtain ⟨f, hf, hhit, heq⟩ := hmem
      have hfid : f.id = fid := (Prod.mk.injEq _ _ _ _ ▸ heq).2.symm ▸ rfl
      rw [fileModeHit_iff] at hhit
      obtain ⟨⟨i0, hi0, hif, hit0⟩, hts, _⟩ := hhit
      intro q hq
      rcases List.mem_cons.mp hq with he | he
      · subst he
        exact ⟨i0, hi0, hit0, by rw [hif, hfid]⟩
      · obtain ⟨i, hi, h1, h2⟩ := hts q he
        exact ⟨i, hi, h2, by rw [h1, hfid]⟩
    · intro h
      obtain ⟨i0, hi0, htok, hfile⟩ := h t (List.mem_cons_self _ _)
      obtain ⟨f, hf, hfid⟩ := hwf i0 hi0
      have hfd : f.id = fid := by rw [hfid, hfile]
      refine ⟨f.path, ?_⟩
      rw [mem_searchFileMode]
      refine ⟨f, hf, ?_, by rw [hfd]⟩
      rw [fileModeHit_iff]
      refine ⟨⟨i0, hi0, by rw [hfid], htok⟩, ?_, by simp [passesIgnores]⟩
      intro q hq
      obtain ⟨i, hi, h1, h2⟩ := h q (List.mem_cons_of_mem _ hq)
      exact ⟨i, hi, by rw [h2, hfd], h1⟩
  · constructor
    · rintro ⟨p, e, hmem⟩
      rw [mem_searchLineMode] at hmem
      obtain ⟨i, hi, htok, f, hf, hfid, hall, _, hrow⟩ := hmem
      have hr := Prod.mk.injEq _ _ _ _ ▸ hrow
      obtain ⟨hp, hrest⟩ := hr
      have hr2 := Prod.mk.injEq _ _ _ _ ▸ hrest
      obtain ⟨hfd, hrest2⟩ := hr2
      have hr3 := Prod.mk.injEq _ _ _ _ ▸ hrest2
      obtain ⟨hl, _⟩ := hr3
      intro q hq
      rcases List.mem_cons.mp hq with he | he
      · subst he
        exact ⟨i, hi, htok, by rw [← hfid, ← hfd], hl.symm⟩
      · obtain ⟨i2, hi2, h1, h2, h3⟩ := hall q he
        exact ⟨i2, hi2, h3, by rw [h1, ← hfd], by rw [h2, ← hl]⟩
    · intro h
      obtain ⟨i0, hi0, htok, hfile, hline⟩ := h t (List.mem_cons_self _ _)
      obtain ⟨f, hf, hfid⟩ := hwf i0 hi0
      refine ⟨f.path, f.encoding, ?_⟩
      rw [mem_searchLineMode]
      refine ⟨i0, hi0, htok, f, hf, hfid, ?_, by simp [passesIgnores], ?_⟩
      · intro q hq
        obtain ⟨i2, hi2, h1, h2, h3⟩ := h q (List.mem_cons_of_mem _ hq)
        exact ⟨i2, hi2, by rw [h2, hfid, hfile], by rw [h3, hline], h1⟩
      · rw [show f.id = fid by rw [hfid, hfile], hline]

/-- Witness for C1 on a two-posting database: token 7 on line 3 and token
9 on line 3 of file 1. -/
theorem claim_C1_witness :
    (∀ i ∈ (⟨[⟨1, [10], some [170], some 7, true, none⟩],
        [⟨7, 1, 3⟩, ⟨9, 1, 3⟩], 2, false⟩ : DBState).finja,
      ∃ f ∈ (⟨[⟨1, [10], some [170], some 7, true, none⟩],
        [⟨7, 1, 3⟩, ⟨9, 1, 3⟩], 2, false⟩ : DBState).files,
        f.id = i.file_id) ∧
    (((∃ p, (p, 1) ∈ searchFileMode
        ⟨[⟨1, [10], some [170], some 7, true, none⟩],
          [⟨7, 1, 3⟩, ⟨9, 1, 3⟩], 2, false⟩ [] 7 [9]) ↔
      ∀ q ∈ [7, 9], ∃ i ∈ [(⟨7, 1, 3⟩ : Posting), ⟨9, 1, 3⟩],
        i.token_id = q ∧ i.file_id = 1) ∧
    ((∃ p e, (p, 1, 3, e) ∈ searchLineMode
        ⟨[⟨1, [10], some [170], some 7, true, none⟩],
          [⟨7, 1, 3⟩, ⟨9, 1, 3⟩], 2, false⟩ [] 7 [9]) ↔
      ∀ q ∈ [7, 9], ∃ i ∈ [(⟨7, 1, 3⟩ : Posting), ⟨9, 1, 3⟩],
        i.token_id = q ∧ i.file_id = 1 ∧ i.line = 3)) :=
  ⟨by decide,
    claim_C1 ⟨[⟨1, [10], some [170], some 7, true, none⟩],
      [⟨7, 1, 3⟩, ⟨9, 1, 3⟩], 2, false⟩ 7 [9] (by decide) 1 3⟩

/-! ## Claim C2: referential integrity after the vanished-file cleanup

The cleanup deletes postings by `found = 0` but deletes file rows by
md5-equivalence to a `found = 0` row.  When a live (`found = 1`) file
shares its md5 with a vanished file — the live copy was indexed first and
owns the postings, the duplicate vanished — the live file's row is
deleted while its postings are not, leaving postings that reference no
existing `File.id`.  The state below is reached by indexing two identical
files (the first owns the postings), deleting the second from disk, and
reindexing: the first row (id 1, found after visit) and the vanished row
(id 2, found = 0) share md5 `[170]`, and posting `(5, 1, 1)` belongs to
file 1. -/
theorem claim_C2 :
    (pass_cleanup ⟨[⟨1, [10], some [170], some 7, true, none⟩,
        ⟨2, [11], some [170], some 8, false, none⟩],
      [⟨5, 1, 1⟩], 3, false⟩).files = [] ∧
    (pass_cleanup ⟨[⟨1, [10], some [170], some 7, true, none⟩,
        ⟨2, [11], some [170], some 8, false, none⟩],
      [⟨5, 1, 1⟩], 3, false⟩).finja = [⟨5, 1, 1⟩] := by
  decide

/-! ## Claim C3: the diverged-duplicate branch of `check_file` -/

/-- C3 counterexample: files 1 and 2 share md5 `[170]`; file 3 has md5
`[187]`.  File 1 is visited with new digest `[187]` (a diverged
duplicate).  After clearing the rows sharing `[170]`,
`count(md5 = [187])` is 1 (> 0), yet `check_file` returns
`reindex = true`: the code sets `duplicated = False` in this branch
without consulting the count, so "re-tokenizes if and only if that count
is zero" is false. -/
theorem claim_C3_counterexample :
    ¬ (((check_file [⟨1, [10], some [170], some 7, true, none⟩,
          ⟨2, [11], some [170], some 8, true, none⟩,
          ⟨3, [12], some [187], some 9, true, none⟩]
        4 false (some 1) [10] 77 (some [170]) [187]).reindex = true) ↔
      count_md5 (clear_inode_md5_of_duplicates
          [⟨1, [10], some [170], some 7, true, none⟩,
           ⟨2, [11], some [170], some 8, true, none⟩,
           ⟨3, [12], some [187], some 9, true, none⟩] [170]) [187] = 0) := by
  decide

/-- C3 (amended): in the diverged-duplicate case (`old_md5` present,
shared by more than one row, different from the new digest), `check_file`
clears inode and md5 on all rows sharing `old_md5`, sets the second-pass
flag, and re-tokenizes unconditionally — it never consults
`count(md5 = new_md5)`, which determines `duplicated` only when this
branch is not taken. -/
theorem claim_C3 (files : List FileRow) (nextFileId : Nat)
    (secondPass : Bool) ( file_ : Option Nat) (cfile_path : List Nat)
    (inode : Nat) (m md5sum : List Nat)
    (hdup : 1 < count_md5 files m) (hne : m ≠ md5sum) :
    (check_file files nextFileId secondPass file_ cfile_path inode
      (some m) md5sum).reindex = true ∧
    (check_file files nextFileId secondPass file_ cfile_path inode
      (some m) md5sum).secondPass = true := by
  unfold check_file
  have hcond : (decide (1 < count_md5 files m) && (m != md5sum)) = true := by
    simp [hdup, bne_iff_ne, hne]
  simp only [hcond, if_pos]
  have hr : ((some m : Option (List Nat)) != some md5sum) = true := by
    simp [bne_iff_ne, hne]
  cases file_ <;> simp [hr]

/-- Witness for C3 at the counterexample state. -/
theorem claim_C3_witness :
    1 < count_md5 [⟨1, [10], some [170], some 7, true, none⟩,
        ⟨2, [11], some [170], some 8, true, none⟩,
        ⟨3, [12], some [187], some 9, true, none⟩] [170] ∧
      ([170] : List Nat) ≠ [187] ∧
      (check_file [⟨1, [10], some [170], some 7, true, none⟩,
          ⟨2, [11], some [170], some 8, true, none⟩,
          ⟨3, [12], some [187], some 9, true, none⟩]
        4 false (some 1) [10] 77 (some [170]) [187]).reindex = true :=
  ⟨by decide, by decide,
    (claim_C3 [⟨1, [10], some [170], some 7, true, none⟩,
        ⟨2, [11], some [170], some 8, true, none⟩,
        ⟨3, [12], some [187], some 9, true, none⟩]
      4 false (some 1) [10] 77 [170] [187] (by decide) (by decide)).1⟩

/-! ## Lemmas about the result sort -/

theorem strLtB_irrefl (a : List Char) : strLtB a a = false := by
  induction a with
  | nil => rfl
  | cons c cs ih => simp [strLtB, ih]

theorem strLtB_trans (a : List Char) :
    ∀ b c, strLtB a b = true → strLtB b c = true → strLtB a c = true := by
  induction a with
  | nil =>
    intro b c hab hbc
    cases b with
    | nil => exact absurd hab (by simp [strLtB])
    | cons y ys =>
      cases c with
      | nil => exact absurd hbc (by simp [strLtB])
      | cons z zs => rfl
  | cons x xs ih =>
    intro b c hab hbc
    cases b with
    | nil => exact absurd hab (by simp [strLtB])
    | cons y ys =>
      cases c with
      | nil => exact absurd hbc (by simp [strLtB])
      | cons z zs =>
        unfold strLtB at hab hbc ⊢
        by_cases h1 : x.toNat < y.toNat
        · by_cases h2 : y.toNat < z.toNat
          · rw [if_pos (by omega)]
          · rw [if_neg h2] at hbc
            by_cases h3 : z.toNat < y.toNat
            · rw [if_pos h3] at hbc
              exact absurd hbc (by simp)
            · have : y.toNat = z.toNat := by omega
              rw [if_pos (by omega)]
        · rw [if_neg h1] at hab
          by_cases h1' : y.toNat < x.toNat
          · rw [if_pos h1'] at hab
            exact absurd hab (by simp)
          · have hxy : x.toNat = y.toNat := by omega
            rw [if_neg h1'] at hab
            by_cases h2 : y.toNat < z.toNat
            · rw [if_pos h2] at hbc
              rw [if_pos (by omega)]
            · rw [if_neg h2] at hbc
              by_cases h3 : z.toNat < y.toNat
              · rw [if_pos h3] at hbc
                exact absurd hbc (by simp)
              · rw [if_neg h3] at hbc
                rw [if_neg (by omega), if_neg (by omega)]
                exact ih ys zs hab hbc

theorem strLtB_asymm (a b : List Char) (h : strLtB a b = true) :
    strLtB b a = false := by
  by_contra hc
  rw [Bool.not_eq_false] at hc
  have := strLtB_trans a b a h hc
  rw [strLtB_irrefl] at this
  exact absurd this (by simp)

theorem strLtB_connex (a : List Char) :
    ∀ b, strLtB a b = false → strLtB b a = false → a = b := by
  induction a with
  | nil =>
    intro b hab _
    cases b with
    | nil => rfl
    | cons y ys => exact absurd hab (by simp [strLtB])
  | cons x xs ih =>
    intro b hab hba
    cases b with
    | nil => exact absurd hba (by simp [strLtB])
    | cons y ys =>
      unfold strLtB at hab hba
      by_cases h1 : x.toNat < y.toNat
      · rw [if_pos h1] at hab
        exact absurd hab (by simp)
      · by_cases h2 : y.toNat < x.toNat
        · rw [if_pos h2] at hba
          exact absurd hba (by simp)
        · have hxy : x.toNat = y.toNat := by omega
          have hx : x = y := Char.ext (UInt32.toNat.inj hxy)
          rw [if_neg h1, if_neg (hxy ▸ h2)] at hab
          rw [if_neg (by omega), if_neg (by omega)] at hba
          rw [hx, ih ys hab hba]

theorem keyLtB_asymm (a b : ResRow) (h : keyLtB a b = true) :
    keyLtB b a = false := by
  unfold keyLtB at h ⊢
  rw [Bool.or_eq_true] at h
  rcases h with h | h
  · have h1 : strLtB b.1 a.1 = false := strLtB_asymm _ _ h
    have h2 : (b.1 == a.1) = false := by
      rw [beq_eq_false_iff_ne]
      intro he
      rw [he] at h
      rw [strLtB_irrefl] at h
      exact absurd h (by simp)
    rw [h1, h2]
    rfl
  · rw [Bool.and_eq_true, beq_iff_eq] at h
    obtain ⟨he, hl⟩ := h
    rw [decide_eq_true_iff] at hl
    have h1 : strLtB b.1 a.1 = false := by
      rw [← he, strLtB_irrefl]
    rw [h1]
    simp [he.symm]
    omega

theorem keyLtB_negtrans (a b c : ResRow) (hab : keyLtB a b = false)
    (hbc : keyLtB b c = false) : keyLtB a c = false := by
  unfold keyLtB at hab hbc ⊢
  rw [Bool.or_eq_false_iff] at hab hbc
  obtain ⟨hab1, hab2⟩ := hab
  obtain ⟨hbc1, hbc2⟩ := hbc
  rw [Bool.or_eq_false_iff]
  constructor
  · by_contra hc
    rw [Bool.not_eq_false] at hc
    by_cases hba : strLtB b.1 a.1 = true
    · have := strLtB_trans b.1 a.1 c.1 hba hc
      rw [this] at hbc1
      exact absurd hbc1 (by simp)
    · have heq : a.1 = b.1 :=
        strLtB_connex a.1 b.1 hab1 (Bool.not_eq_true _ ▸ hba)
      rw [← heq] at hbc1
      rw [hc] at hbc1
      exact absurd hbc1 (by simp)
  · by_cases hac : a.1 = c.1
    · have hba : strLtB b.1 a.1 = false := by rw [hac]; exact hbc1
      have heq : a.1 = b.1 := strLtB_connex a.1 b.1 hab1 hba
      rw [show (a.1 == b.1) = true by simp [heq], Bool.true_and,
        decide_eq_false_iff_not] at hab2
      have heq2 : b.1 = c.1 := by rw [← heq, hac]
      rw [show (b.1 == c.1) = true by simp [heq2], Bool.true_and,
        decide_eq_false_iff_not] at hbc2
      rw [show (a.1 == c.1) = true by simp [hac], Bool.true_and,
        decide_eq_false_iff_not]
      omega
    · rw [show (a.1 == c.1) = false by simp [hac], Bool.false_and]

theorem mem_sortInsert (r y : ResRow) (l : List ResRow) :
    y ∈ sortInsert r l ↔ y = r ∨ y ∈ l := by
  induction l with
  | nil => simp [sortInsert]
  | cons x xs ih =>
    unfold sortInsert
    by_cases hk : keyLtB r x
    · rw [if_pos hk]
      simp only [List.mem_cons, ih]
      tauto
    · rw [if_neg hk]
      simp only [List.mem_cons]

theorem pairwise_sortInsert (r : ResRow) (l : List ResRow)
    (h : l.Pairwise fun a b => keyLtB a b = false) :
    (sortInsert r l).Pairwise fun a b => keyLtB a b = false := by
  induction l with
  | nil => simp [sortInsert]
  | cons x xs ih =>
    rw [List.pairwise_cons] at h
    obtain ⟨hx, hxs⟩ := h
    unfold sortInsert
    by_cases hk : keyLtB r x
    · rw [if_pos hk, List.pairwise_cons]
      refine ⟨?_, ih hxs⟩
      intro y hy
      rcases (mem_sortInsert r y xs).mp hy with he | he
      · rw [he]
        exact keyLtB_asymm r x hk
      · exact hx y he
    · rw [if_neg hk, List.pairwise_cons]
      have hrx : keyLtB r x = false := Bool.not_eq_true _ ▸ hk
      refine ⟨?_, List.pairwise_cons.mpr ⟨hx, hxs⟩⟩
      intro y hy
      rcases List.mem_cons.mp hy with he | he
      · subst he
        exact hrx
      · exact keyLtB_negtrans r x y hrx (hx y he)

theorem perm_sortInsert (r : ResRow) (l : List ResRow) :
    (sortInsert r l).Perm (r :: l) := by
  induction l with
  | nil => simp [sortInsert]
  | cons x xs ih =>
    unfold sortInsert
    by_cases hk : keyLtB r x
    · rw [if_pos hk]
      exact (ih.cons x).trans (List.Perm.swap r x xs)
    · rw [if_neg hk]

theorem sort_format_rows_pairwise (rows : List ResRow) :
    (sort_format_rows rows).Pairwise fun a b => keyLtB a b = false := by
  induction rows with
  | nil => simp [sort_format_rows]
  | cons r rest ih =>
    unfold sort_format_rows
    exact pairwise_sortInsert r _ ih

/-! ## Claim C9: the line-mode result order -/

/-- C9 counterexample: two rows with equal path "a" and lines 1 and 2.
The claimed order (path descending, line descending within a path) would
put line 2 first; `sorted(key=lambda x: (x[0], -x[2]), reverse=True)`
puts line 1 first (lines ascend within a path). -/
theorem claim_C9_counterexample :
    sort_format_rows [(['a'], 1, 1, none), (['a'], 1, 2, none)] =
      [(['a'], 1, 1, none), (['a'], 1, 2, none)] ∧
    ¬ (sort_format_rows [(['a'], 1, 1, none), (['a'], 1, 2, none)]).Pairwise
        (fun a b => strLtB b.1 a.1 = true ∨
          (a.1 = b.1 ∧ b.2.2.1 ≤ a.2.2.1)) := by
  constructor
  · decide
  · intro h
    have := List.pairwise_cons.mp h
    have h2 := this.1 (['a'], 1, 2, none) (by decide)
    revert h2
    decide

/-- C9 (amended): the formatter sorts the decompressed rows by path
descending and, within the same path, by line number ascending (the
`-x[2]` key component under `reverse=True` re-reverses the line order);
the sorted list is a permutation of the input. -/
theorem claim_C9 (rows : List ResRow) :
    (sort_format_rows rows).Pairwise
      (fun a b => strLtB b.1 a.1 = true ∨
        (a.1 = b.1 ∧ a.2.2.1 ≤ b.2.2.1)) ∧
    (sort_format_rows rows).Perm rows := by
  constructor
  · apply List.Pairwise.imp ?_ (sort_format_rows_pairwise rows)
    intro a b hab
    unfold keyLtB at hab
    rw [Bool.or_eq_false_iff] at hab
    obtain ⟨h1, h2⟩ := hab
    by_cases hba : strLtB b.1 a.1 = true
    · exact Or.inl hba
    · have heq : a.1 = b.1 :=
        strLtB_connex a.1 b.1 h1 (Bool.not_eq_true _ ▸ hba)
      refine Or.inr ⟨heq, ?_⟩
      rw [show (a.1 == b.1) = true by simp [heq], Bool.true_and,
        decide_eq_false_iff_not] at h2
      omega
  · induction rows with
    | nil => simp [sort_format_rows]
    | cons r rest ih =>
      unfold sort_format_rows
      exact (perm_sortInsert r _).trans (ih.cons r)

/-! ## Lemmas about the token dictionary -/

theorem token_dict_get_spec (d : TokenDictState) (db : TokenDB)
    (k : List Nat) (base : Nat) (hbase : base ≤ d.token_id)
    (hcache : ∀ r ∈ d.cache,
      lookupTok db.token r.1 = some r.2 ∨ base < r.2) :
    (token_dict_get d db k).2.1 = db ∧
    d.token_id ≤ (token_dict_get d db k).1.token_id ∧
    (∀ r ∈ (token_dict_get d db k).1.cache,
      lookupTok db.token r.1 = some r.2 ∨ base < r.2) ∧
    (lookupTok db.token k = none → base < (token_dict_get d db k).2.2) := by
  unfold token_dict_get
  cases hc : (d.cache.find? fun r => r.1 == k).map (·.2) with
  | some i =>
    refine ⟨rfl, le_refl _, hcache, ?_⟩
    intro hnone
    rw [Option.map_eq_some'] at hc
    obtain ⟨r0, hf, hi⟩ := hc
    have hr0 : r0 ∈ d.cache := List.mem_of_find?_eq_some hf
    have hk : r0.1 = k := by simpa using List.find?_some hf
    rcases hcache r0 hr0 with h | h
    · rw [hk, hnone] at h
      exact absurd h (by simp)
    · show base < i
      omega
  | none =>
    cases ht : lookupTok db.token k with
    | some i =>
      refine ⟨rfl, le_refl _, ?_, ?_⟩
      · show ∀ r ∈ d.cache ++ [(k, i)], _
        intro r hr
        rcases List.mem_append.mp hr with h | h
        · exact hcache r h
        · rw [List.mem_singleton] at h
          subst h
          exact Or.inl ht
      · intro hnone
        exact absurd hnone (by simp)
    | none =>
      refine ⟨rfl, ?_, ?_, fun _ => ?_⟩
      · show d.token_id ≤ d.token_id + 1
        omega
      · show ∀ r ∈ d.cache ++ [(k, d.token_id + 1)], _
        intro r hr
        rcases List.mem_append.mp hr with h | h
        · exact hcache r h
        · rw [List.mem_singleton] at h
          subst h
          exact Or.inr (by omega)
      · show base < d.token_id + 1
        omega

theorem search_resolve_spec (qs : List (List Nat)) (d : TokenDictState)
    (db : TokenDB) (base : Nat) (hbase : base ≤ d.token_id)
    (hcache : ∀ r ∈ d.cache,
      lookupTok db.token r.1 = some r.2 ∨ base < r.2) :
    (search_resolve d db qs).2.1 = db ∧
    ∀ q ∈ qs, lookupTok db.token q = none →
      ∃ tid ∈ (search_resolve d db qs).2.2, base < tid := by
  induction qs generalizing d with
  | nil => exact ⟨rfl, by simp⟩
  | cons q rest ih =>
    obtain ⟨hframe, hmono, hcache', hfresh⟩ :=
      token_dict_get_spec d db q base hbase hcache
    have hexp : search_resolve d db (q :: rest) =
        ((search_resolve (token_dict_get d db q).1 db rest).1,
         (search_resolve (token_dict_get d db q).1 db rest).2.1,
         (token_dict_get d db q).2.2 ::
           (search_resolve (token_dict_get d db q).1 db rest).2.2) := by
      show ((search_resolve (token_dict_get d db q).1
          (token_dict_get d db q).2.1 rest).1,
        (search_resolve (token_dict_get d db q).1
          (token_dict_get d db q).2.1 rest).2.1,
        (token_dict_get d db q).2.2 ::
          (search_resolve (token_dict_get d db q).1
            (token_dict_get d db q).2.1 rest).2.2) = _
      rw [hframe]
    obtain ⟨ihframe, ihrest⟩ :=
      ih (token_dict_get d db q).1 (le_trans hbase hmono) hcache'
    rw [hexp]
    refine ⟨ihframe, ?_⟩
    intro q' hq' hnone
    rcases List.mem_cons.mp hq' with he | he
    · subst he
      exact ⟨(token_dict_get d db q').2.2, List.mem_cons_self _ _,
        hfresh hnone⟩
    · obtain ⟨tid, htid, hlt⟩ := ihrest q' he hnone
      exact ⟨tid, List.mem_cons_of_mem _ htid, hlt⟩

/-! ## Claim C10: a search never writes the token table -/

/-- C10: with a freshly opened dictionary (empty cache, `token_id` at
least every persisted token id), the lookups a search performs leave the
whole persisted side — the `token` table and the `MAX_ID` key — unchanged
(fresh ids live only in the in-memory buffer, which only `commit`, called
by the indexer alone, would flush), and every query token absent from the
`token` table resolves to an id no posting references, so any conjunctive
query through that id has an empty result in both modes. -/
theorem claim_C10 (d0 : TokenDictState) (db : TokenDB) (st : DBState)
    (qs : List (List Nat)) (q : List Nat)
    (hc : d0.cache = [])
    (hmax : ∀ r ∈ db.token, r.2 ≤ d0.token_id)
    (hwf : ∀ i ∈ st.finja, ∃ r ∈ db.token, r.2 = i.token_id)
    (hq : q ∈ qs) (habs : lookupTok db.token q = none) :
    (search_resolve d0 db qs).2.1 = db ∧
    ∃ tid ∈ (search_resolve d0 db qs).2.2,
      (∀ i ∈ st.finja, i.token_id ≠ tid) ∧
      (∀ (t : Nat) (ts : List Nat) (f : FileRow), tid = t ∨ tid ∈ ts →
        fileModeHit st [] t ts f = false) ∧
      (∀ (t : Nat) (ts : List Nat) (f : FileRow) (l : Nat),
        tid = t ∨ tid ∈ ts → lineModeHit st [] t ts f l = false) := by
  obtain ⟨hframe, hfind⟩ :=
    search_resolve_spec qs d0 db d0.token_id (le_refl _)
      (by rw [hc]; simp)
  obtain ⟨tid, htid, hlt⟩ := hfind q hq habs
  have hne : ∀ i ∈ st.finja, i.token_id ≠ tid := by
    intro i hi
    obtain ⟨r, hr, hrid⟩ := hwf i hi
    have := hmax r hr
    omega
  have hanyfile : ∀ (f : FileRow),
      (st.finja.any fun i => i.file_id == f.id && i.token_id == tid) =
        false := by
    intro f
    rw [List.any_eq_false]
    intro i hi
    simp only [Bool.and_eq_true, beq_iff_eq, not_and]
    intro _
    exact hne i hi
  have hanyline : ∀ (f : FileRow) (l : Nat),
      (st.finja.any fun i => i.file_id == f.id && i.token_id == tid &&
        i.line == l) = false := by
    intro f l
    rw [List.any_eq_false]
    intro i hi
    simp only [Bool.and_eq_true, beq_iff_eq, not_and]
    intro h
    exact absurd h.2 (hne i hi)
  have hanyline2 : ∀ (f : FileRow) (l : Nat),
      (st.finja.any fun i => i.file_id == f.id && i.line == l &&
        i.token_id == tid) = false := by
    intro f l
    rw [List.any_eq_false]
    intro i hi
    simp only [Bool.and_eq_true, beq_iff_eq, not_and]
    intro _
    exact hne i hi
  refine ⟨hframe, tid, htid, hne, ?_, ?_⟩
  · intro t ts f hcase
    unfold fileModeHit
    rcases hcase with he | he
    · rw [← he, hanyfile f, Bool.false_and, Bool.false_and]
    · have hB : (ts.all fun q' => st.finja.any fun i =>
          i.file_id == f.id && i.token_id == q') = false := by
        rw [List.all_eq_false]
        exact ⟨tid, he, by rw [hanyfile f]; simp⟩
      rw [hB, Bool.and_false, Bool.false_and]
  · intro t ts f l hcase
    unfold lineModeHit
    rcases hcase with he | he
    · rw [← he, hanyline f l, Bool.false_and, Bool.false_and]
    · have hB : (ts.all fun q' => st.finja.any fun i =>
          i.file_id == f.id && i.line == l && i.token_id == q') =
            false := by
        rw [List.all_eq_false]
        exact ⟨tid, he, by rw [hanyline2 f l]; simp⟩
      rw [hB, Bool.and_false, Bool.false_and]

/-- Witness for C10: a dictionary seeded at 41 over a one-token table;
the query token "xy" is absent. -/
theorem claim_C10_witness :
    lookupTok [([97, 98], 7)] [120, 121] = none ∧
    ((search_resolve ⟨[], 41, []⟩ ⟨[([97, 98], 7)], some 41⟩
        [[120, 121]]).2.1 = ⟨[([97, 98], 7)], some 41⟩ ∧
      ∃ tid ∈ (search_resolve ⟨[], 41, []⟩ ⟨[([97, 98], 7)], some 41⟩
          [[120, 121]]).2.2,
        (∀ i ∈ (⟨[⟨1, [10], none, none, true, none⟩], [⟨7, 1, 3⟩], 2,
            false⟩ : DBState).finja, i.token_id ≠ tid) ∧
        (∀ (t : Nat) (ts : List Nat) (f : FileRow), tid = t ∨ tid ∈ ts →
          fileModeHit ⟨[⟨1, [10], none, none, true, none⟩], [⟨7, 1, 3⟩],
            2, false⟩ [] t ts f = false) ∧
        (∀ (t : Nat) (ts : List Nat) (f : FileRow) (l : Nat),
          tid = t ∨ tid ∈ ts →
          lineModeHit ⟨[⟨1, [10], none, none, true, none⟩], [⟨7, 1, 3⟩],
            2, false⟩ [] t ts f l = false)) :=
  ⟨by decide,
    claim_C10 ⟨[], 41, []⟩ ⟨[([97, 98], 7)], some 41⟩
      ⟨[⟨1, [10], none, none, true, none⟩], [⟨7, 1, 3⟩], 2, false⟩
      [[120, 121]] [120, 121] rfl (by decide) (by decide) (by decide)
      (by decide)⟩

/-! ## Lemmas about an unchanged reindex pass -/

theorem find_file_of_mem (files : List FileRow) (f : FileRow)
    (hpw : files.Pairwise fun a b => a.path ≠ b.path) (hf : f ∈ files) :
    find_file files f.path = some f := by
  induction files with
  | nil => simp at hf
  | cons a rest ih =>
    rw [List.pairwise_cons] at hpw
    unfold find_file
    rcases List.mem_cons.mp hf with h | h
    · subst h
      rw [List.find?_cons_of_pos _ (by simp)]
    · rw [List.find?_cons_of_neg _
        (by simp; exact fun he => absurd he (hpw.1 f h))]
      exact ih hpw.2 h

theorem fold_index_file_marks (visits : List Visit) (cur : DBState)
    (hpw : cur.files.Pairwise fun a b => a.path ≠ b.path)
    (hv : ∀ v ∈ visits, ∃ f ∈ cur.files,
      f.path = v.cpath ∧ f.inode = some v.inode) :
    (visits.foldl index_file cur).finja = cur.finja ∧
    (visits.foldl index_file cur).files = cur.files.map (fun f =>
      if visits.any (fun v => f.path == v.cpath) then
        { f with found := true }
      else f) := by
  induction visits generalizing cur with
  | nil =>
    refine ⟨rfl, ?_⟩
    simp
  | cons v vs ih =>
    obtain ⟨f0, hf0, hpath, hinode⟩ := hv v (List.mem_cons_self _ _)
    have hfind : find_file cur.files v.cpath = some f0 := by
      rw [← hpath]
      exact find_file_of_mem cur.files f0 hpw hf0
    have hstep : index_file cur v =
        { cur with files := mark_found cur.files v.cpath } := by
      unfold index_file
      rw [hfind]
      simp [hinode]
    rw [List.foldl_cons, hstep]
    have hmarkpath : ∀ (f : FileRow),
        ((if f.path == v.cpath then { f with found := true } else f) :
          FileRow).path = f.path := by
      intro f
      by_cases hc : f.path == v.cpath
      · rw [if_pos hc]
      · rw [if_neg hc]
    have hmarkinode : ∀ (f : FileRow),
        ((if f.path == v.cpath then { f with found := true } else f) :
          FileRow).inode = f.inode := by
      intro f
      by_cases hc : f.path == v.cpath
      · rw [if_pos hc]
      · rw [if_neg hc]
    have hpw' : (mark_found cur.files v.cpath).Pairwise
        (fun a b => a.path ≠ b.path) := by
      unfold mark_found
      rw [List.pairwise_map]
      apply hpw.imp
      intro a b hab
      rw [hmarkpath a, hmarkpath b]
      exact hab
    have hv' : ∀ w ∈ vs, ∃ f ∈ mark_found cur.files v.cpath,
        f.path = w.cpath ∧ f.inode = some w.inode := by
      intro w hw
      obtain ⟨f, hf, h1, h2⟩ := hv w (List.mem_cons_of_mem _ hw)
      unfold mark_found
      refine ⟨if f.path == v.cpath then { f with found := true } else f,
        List.mem_map_of_mem _ hf, ?_, ?_⟩
      · rw [hmarkpath f]
        exact h1
      · rw [hmarkinode f]
        exact h2
    obtain ⟨ihfinja, ihfiles⟩ :=
      ih { cur with files := mark_found cur.files v.cpath } hpw' hv'
    refine ⟨ihfinja, ?_⟩
    rw [ihfiles]
    show (mark_found cur.files v.cpath).map _ = _
    unfold mark_found
    rw [List.map_map]
    apply List.map_congr_left
    intro f _
    simp only [Function.comp]
    by_cases h1 : f.path == v.cpath
    · rw [if_pos h1]
      show (if (vs.any fun w => f.path == w.cpath) = true then
          ({ f with found := true } : FileRow) else { f with found := true }) =
        if ((v :: vs).any fun w => f.path == w.cpath) = true then
          { f with found := true } else f
      rw [ite_self, if_pos (by rw [List.any_cons]; simp [h1])]
    · rw [if_neg h1]
      have h1f : (f.path == v.cpath) = false := by
        simpa using h1
      show (if (vs.any fun w => f.path == w.cpath) = true then
          ({ f with found := true } : FileRow) else f) =
        if ((v :: vs).any fun w => f.path == w.cpath) = true then
          { f with found := true } else f
      have hcons : ((v :: vs).any fun w => f.path == w.cpath) =
          (vs.any fun w => f.path == w.cpath) := by
        rw [List.any_cons, h1f, Bool.false_or]
      rw [hcons]

/-! ## Claim C7: a reindex over an unchanged tree -/

/-- C7: when every visited file's stat inode equals the stored inode of
its (unique) file row and every file row is visited, a whole
`do_index_pass` leaves the posting table identical and only sets
`found = 1` on every file row: zero posting deletes, zero posting
inserts. -/
theorem claim_C7 (st : DBState) (visits : List Visit)
    (hpw : st.files.Pairwise fun a b => a.path ≠ b.path)
    (hv : ∀ v ∈ visits, ∃ f ∈ st.files,
      f.path = v.cpath ∧ f.inode = some v.inode)
    (hall : ∀ f ∈ st.files, ∃ v ∈ visits, f.path = v.cpath) :
    (do_index_pass st visits).finja = st.finja ∧
    (do_index_pass st visits).files =
      st.files.map fun f => { f with found := true } := by
  unfold do_index_pass
  have hpw' : (clear_found_files st).files.Pairwise
      (fun a b => a.path ≠ b.path) := by
    show (st.files.map _).Pairwise _
    rw [List.pairwise_map]
    exact hpw.imp fun hab => hab
  have hv' : ∀ v ∈ visits, ∃ f ∈ (clear_found_files st).files,
      f.path = v.cpath ∧ f.inode = some v.inode := by
    intro v hvv
    obtain ⟨f, hf, h1, h2⟩ := hv v hvv
    exact ⟨{ f with found := false }, List.mem_map_of_mem _ hf, h1, h2⟩
  obtain ⟨hfinja, hfiles⟩ := fold_index_file_marks visits _ hpw' hv'
  have hfiles2 : (visits.foldl index_file (clear_found_files st)).files =
      st.files.map fun f => { f with found := true } := by
    rw [hfiles]
    show ((st.files.map _).map _) = _
    rw [List.map_map]
    apply List.map_congr_left
    intro f hf
    simp only [Function.comp]
    obtain ⟨v, hvv, hvp⟩ := hall f hf
    rw [if_pos]
    rw [List.any_eq_true]
    exact ⟨v, hvv, by simpa using hvp⟩
  have hcount : find_missing_count (visits.foldl index_file
      (clear_found_files st)) = 0 := by
    unfold find_missing_count
    rw [hfiles2]
    have hnil : (st.files.map fun f =>
        ({ f with found := true } : FileRow)).filter
          (fun f => !f.found) = [] := by
      rw [List.filter_eq_nil_iff]
      intro a ha
      rw [List.mem_map] at ha
      obtain ⟨b, _, hb⟩ := ha
      rw [← hb]
      simp
    rw [hnil]
    rfl
  have hclean : pass_cleanup (visits.foldl index_file
      (clear_found_files st)) = visits.foldl index_file
      (clear_found_files st) := by
    unfold pass_cleanup
    rw [hcount]
    simp
  rw [hclean, hfinja, hfiles2]
  exact ⟨rfl, rfl⟩

/-- Witness for C7: one file row with inode 7, one visit with the same
path and inode. -/
theorem claim_C7_witness :
    (∀ v ∈ [(⟨[10], 7, [170], false, true, none, []⟩ : Visit)],
      ∃ f ∈ [(⟨1, [10], some [170], some 7, false, none⟩ : FileRow)],
        f.path = v.cpath ∧ f.inode = some v.inode) ∧
    (do_index_pass ⟨[⟨1, [10], some [170], some 7, false, none⟩],
        [⟨5, 1, 1⟩], 2, false⟩
      [⟨[10], 7, [170], false, true, none, []⟩]).finja = [⟨5, 1, 1⟩] ∧
    (do_index_pass ⟨[⟨1, [10], some [170], some 7, false, none⟩],
        [⟨5, 1, 1⟩], 2, false⟩
      [⟨[10], 7, [170], false, true, none, []⟩]).files =
      [⟨1, [10], some [170], some 7, true, none⟩] :=
  ⟨by decide,
    (claim_C7 ⟨[⟨1, [10], some [170], some 7, false, none⟩],
        [⟨5, 1, 1⟩], 2, false⟩
      [⟨[10], 7, [170], false, true, none, []⟩]
      (by decide) (by decide) (by decide)).1,
    (claim_C7 ⟨[⟨1, [10], some [170], some 7, false, none⟩],
        [⟨5, 1, 1⟩], 2, false⟩
      [⟨[10], 7, [170], false, true, none, []⟩]
      (by decide) (by decide) (by decide)).2⟩

/-! ## Lemmas about the positive tokenizer pass -/

theorem length_dropWhile_le (p : α → Bool) (l : List α) :
    (l.dropWhile p).length ≤ l.length := by
  induction l with
  | nil => simp
  | cons a t ih =>
    by_cases hp : p a
    · rw [List.dropWhile_cons_of_pos hp]
      exact le_trans ih (by simp)
    · rw [List.dropWhile_cons_of_neg hp]

theorem maximalRunsAux_fuel (p : α → Bool) (f1 : Nat) :
    ∀ (f2 : Nat) (l : List α), l.length ≤ f1 → l.length ≤ f2 →
      maximalRunsAux p f1 l = maximalRunsAux p f2 l := by
  induction f1 with
  | zero =>
    intro f2 l h1 _
    have hl : l = [] := List.length_eq_zero.mp (Nat.le_zero.mp h1)
    subst hl
    cases f2 <;> rfl
  | succ f ih =>
    intro f2 l h1 h2
    cases l with
    | nil => cases f2 <;> rfl
    | cons c cs =>
      cases f2 with
      | zero => simp at h2
      | succ g =>
        show (if p c then (c :: cs.takeWhile p) ::
            maximalRunsAux p f (cs.dropWhile p)
          else maximalRunsAux p f cs) =
          (if p c then (c :: cs.takeWhile p) ::
            maximalRunsAux p g (cs.dropWhile p)
          else maximalRunsAux p g cs)
        simp only [List.length_cons] at h1 h2
        by_cases hp : p c
        · rw [if_pos hp, if_pos hp]
          congr 1
          have hle := length_dropWhile_le p cs
          apply ih
          · omega
          · omega
        · rw [if_neg hp, if_neg hp]
          apply ih
          · omega
          · omega

theorem maximalRuns_cons (p : α → Bool) (c : α) (cs : List α) :
    maximalRuns p (c :: cs) =
      if p c then (c :: cs.takeWhile p) :: maximalRuns p (cs.dropWhile p)
      else maximalRuns p cs := by
  show (if p c then (c :: cs.takeWhile p) ::
      maximalRunsAux p cs.length (cs.dropWhile p)
    else maximalRunsAux p cs.length cs) = _
  by_cases hp : p c
  · rw [if_pos hp, if_pos hp]
    congr 1
    exact maximalRunsAux_fuel p cs.length (cs.dropWhile p).length
      (cs.dropWhile p) (length_dropWhile_le p cs) le_rfl
  · rw [if_neg hp, if_neg hp]
    rfl

theorem takeWhile_eq_nil_of_head? (p : α → Bool) (l : List α)
    (h : ∀ x, l.head? = some x → p x = false) : l.takeWhile p = [] := by
  cases l with
  | nil => rfl
  | cons a t =>
    have ha := h a rfl
    rw [List.takeWhile_cons_of_neg (by simp [ha])]

theorem dropWhile_ne_nil_of_getLast? (p : α → Bool) (l : List α) (y : α)
    (hy : l.getLast? = some y) (hpy : p y = false) :
    l.dropWhile p ≠ [] := by
  induction l with
  | nil => simp at hy
  | cons a t ih =>
    by_cases hp : p a
    · rw [List.dropWhile_cons_of_pos hp]
      cases t with
      | nil =>
        have hay : a = y := by simpa using hy
        rw [hay] at hp
        rw [hpy] at hp
        exact absurd hp (by simp)
      | cons b u =>
        apply ih
        rw [List.getLast?_cons_cons] at hy
        exact hy
    · rw [List.dropWhile_cons_of_neg hp]
      simp

theorem mem_maximalRuns (p : α → Bool) (l r : List α) :
    r ∈ maximalRuns p l ↔ IsMaxRun p l r := by
  cases l with
  | nil =>
    show r ∈ ([] : List (List α)) ↔ _
    simp only [List.not_mem_nil, false_iff]
    rintro ⟨hne, _, pre, post, heq, _, _⟩
    have hlen := congrArg List.length heq
    simp at hlen
    have : r.length = 0 := by omega
    exact hne (List.length_eq_zero.mp this)
  | cons c cs =>
    rw [maximalRuns_cons]
    by_cases hc : p c
    · rw [if_pos hc]
      constructor
      · intro hmem
        rcases List.mem_cons.mp hmem with he | he
        · subst he
          refine ⟨by simp, ?_, [], cs.dropWhile p, ?_, ?_, ?_⟩
          · intro x hx
            rcases List.mem_cons.mp hx with hxe | hxe
            · rw [hxe]
              exact hc
            · exact List.mem_takeWhile_imp hxe
          · show c :: cs = [] ++ (c :: cs.takeWhile p) ++ cs.dropWhile p
            simp [List.takeWhile_append_dropWhile]
          · intro x hx
            simp at hx
          · intro x hx
            exact dropWhile_head?_false p cs x hx
        · obtain ⟨hne, hall, pre, post, heq, hpre, hpost⟩ :=
            (mem_maximalRuns p (cs.dropWhile p) r).mp he
          cases pre with
          | nil =>
            exfalso
            cases hr : r with
            | nil => exact hne hr
            | cons r0 rs =>
              rw [hr] at heq
              have hhead : (cs.dropWhile p).head? = some r0 := by
                rw [heq]
                rfl
              have hfalse := dropWhile_head?_false p cs r0 hhead
              have htrue := hall r0 (by rw [hr]; exact List.mem_cons_self _ _)
              rw [htrue] at hfalse
              exact absurd hfalse (by simp)
          | cons d pre' =>
            refine ⟨hne, hall, (c :: cs.takeWhile p) ++ d :: pre', post,
              ?_, ?_, hpost⟩
            · conv_lhs => rw [show c :: cs =
                c :: (cs.takeWhile p ++ cs.dropWhile p) from by
                  rw [List.takeWhile_append_dropWhile]]
              rw [heq]
              simp [List.append_assoc]
            · intro x hx
              rw [List.getLast?_append] at hx
              cases hLast : (d :: pre').getLast? with
              | none => simp at hLast
              | some y =>
                rw [hLast] at hx
                have hxy : y = x := by simpa using hx
                apply hpre
                rw [hLast, hxy]
      · rintro ⟨hne, hall, pre, post, heq, hpre, hpost⟩
        cases pre with
        | nil =>
          rw [List.nil_append] at heq
          cases hr : r with
          | nil => exact absurd hr hne
          | cons r0 rs =>
            rw [hr, List.cons_append] at heq
            injection heq with hc0 hcs
            apply List.mem_cons.mpr
            left
            have hrs : ∀ x ∈ rs, p x = true := fun x hx =>
              hall x (by rw [hr]; exact List.mem_cons_of_mem _ hx)
            have htw : cs.takeWhile p = rs := by
              rw [hcs, List.takeWhile_append_of_pos hrs,
                takeWhile_eq_nil_of_head? p post hpost, List.append_nil]
            rw [htw, hc0]
        | cons d pre' =>
          rw [List.cons_append, List.cons_append] at heq
          injection heq with hc0 hcs
          cases pre' with
          | nil =>
            exfalso
            have hd : p d = false := hpre d (by simp)
            rw [← hc0] at hd
            rw [hc] at hd
            exact absurd hd (by simp)
          | cons e pre2 =>
            apply List.mem_cons.mpr
            right
            apply (mem_maximalRuns p (cs.dropWhile p) r).mpr
            have hylast : ∃ y, (e :: pre2).getLast? = some y := by
              cases hy : (e :: pre2).getLast? with
              | none => simp at hy
              | some y => exact ⟨y, rfl⟩
            obtain ⟨y, hy⟩ := hylast
            have hpy : p y = false := by
              apply hpre
              rw [List.getLast?_cons_cons]
              exact hy
            have hdne : (e :: pre2).dropWhile p ≠ [] :=
              dropWhile_ne_nil_of_getLast? p (e :: pre2) y hy hpy
            refine ⟨hne, hall, (e :: pre2).dropWhile p, post, ?_, ?_,
              hpost⟩
            · rw [hcs, List.append_assoc, List.dropWhile_append,
                if_neg (by simpa using hdne), ← List.append_assoc]
            · intro x hx
              rw [getLast?_dropWhile p (e :: pre2) hdne] at hx
              apply hpre
              rw [List.getLast?_cons_cons]
              exact hx
    · rw [if_neg hc]
      rw [Bool.not_eq_true] at hc
      constructor
      · intro hmem
        obtain ⟨hne, hall, pre, post, heq, hpre, hpost⟩ :=
          (mem_maximalRuns p cs r).mp hmem
        refine ⟨hne, hall, c :: pre, post, by rw [heq]; simp, ?_, hpost⟩
        intro x hx
        cases pre with
        | nil =>
          have hxc : c = x := by simpa using hx
          rw [← hxc]
          exact hc
        | cons e pre2 =>
          apply hpre
          rw [List.getLast?_cons_cons] at hx
          exact hx
      · rintro ⟨hne, hall, pre, post, heq, hpre, hpost⟩
        cases pre with
        | nil =>
          exfalso
          rw [List.nil_append] at heq
          cases hr : r with
          | nil => exact hne hr
          | cons r0 rs =>
            rw [hr, List.cons_append] at heq
            injection heq with hc0 _
            have htrue := hall r0 (by rw [hr]; exact List.mem_cons_self _ _)
            rw [← hc0] at htrue
            rw [hc] at htrue
            exact absurd htrue (by simp)
        | cons d pre' =>
          rw [List.cons_append] at heq
          injection heq with _ hcs
          apply (mem_maximalRuns p cs r).mpr
          refine ⟨hne, hall, pre', post, hcs, ?_, hpost⟩
          intro x hx
          cases pre' with
          | nil => simp at hx
          | cons e pre2 =>
            apply hpre
            rw [List.getLast?_cons_cons]
            exact hx
termination_by l.length
decreasing_by
  all_goals
    simp only [List.length_cons]
    first
      | exact Nat.lt_succ_of_le (length_dropWhile_le _ _)
      | exact Nat.lt_succ_self _

/-! ## Claim C8: the positive pass -/

/-- C8 counterexample: on the line "café", pass 0 produces the single run
"café": the character é (U+00E9), which is outside `[A-Za-z0-9_]`, extends
the token, because Python 3's `\w` is the Unicode word class. -/
theorem claim_C8_counterexample :
    maximalRuns isPyWordChar ['c', 'a', 'f', 'é'] = [['c', 'a', 'f', 'é']] ∧
    ¬ (∀ run ∈ maximalRuns isPyWordChar ['c', 'a', 'f', 'é'],
        ∀ c ∈ run, isAsciiWord c = true) := by
  constructor
  · decide
  · decide

/-- C8 (amended): pass 0 is a positive pass that finds exactly the maximal
runs of Python `\w` word characters — a run is returned iff it is a
non-empty all-word-character segment of the line delimited by non-word
characters or the line ends — and emits the normalization of each run;
on ASCII characters the `\w` class coincides with `[A-Za-z0-9_]`. -/
theorem claim_C8 (line r : List Char) :
    (r ∈ maximalRuns isPyWordChar line ↔ IsMaxRun isPyWordChar line r) ∧
    pass0_tokens line = (maximalRuns isPyWordChar line).filterMap
      (fun run => cleanup (run.map Char.toNat)) ∧
    (∀ c : Char, c.toNat < 128 → isPyWordChar c = isAsciiWord c) := by
  refine ⟨mem_maximalRuns isPyWordChar line r, rfl, ?_⟩
  intro c hc
  unfold isPyWordChar isAsciiWord
  simp only []
  have e1 : (c.toNat == 170) = false := by
    rw [beq_eq_false_iff_ne]
    omega
  have e2 : (c.toNat == 178) = false := by
    rw [beq_eq_false_iff_ne]
    omega
  have e3 : (c.toNat == 179) = false := by
    rw [beq_eq_false_iff_ne]
    omega
  have e4 : (c.toNat == 181) = false := by
    rw [beq_eq_false_iff_ne]
    omega
  have e5 : (c.toNat == 185) = false := by
    rw [beq_eq_false_iff_ne]
    omega
  have e6 : (c.toNat == 186) = false := by
    rw [beq_eq_false_iff_ne]
    omega
  have e7 : (c.toNat == 188) = false := by
    rw [beq_eq_false_iff_ne]
    omega
  have e8 : (c.toNat == 189) = false := by
    rw [beq_eq_false_iff_ne]
    omega
  have e9 : (c.toNat == 190) = false := by
    rw [beq_eq_false_iff_ne]
    omega
  have r1 : (decide (192 ≤ c.toNat)) = false := by
    rw [decide_eq_false_iff_not]
    omega
  have r2 : (decide (216 ≤ c.toNat)) = false := by
    rw [decide_eq_false_iff_not]
    omega
  have r3 : (decide (248 ≤ c.toNat)) = false := by
    rw [decide_eq_false_iff_not]
    omega
  rw [e1, e2, e3, e4, e5, e6, e7, e8, e9, r1, r2, r3]
  simp

end Finja
